import Mathlib

/-!
# Cytore: a memory-mapped, offset-addressed heap (`Cytore.hpp`)

A shallow embedding of `Cytore::File<Base_>` and of the part of the operating
system it talks to (one backing file, `ftruncate`, `mmap`), followed by theorems
about `Open`, `Reserve`, `New` and `Get`.

Conventions of the embedding.

* `size_t` and `uintptr_t` are `8 * W` bits wide, `W = sizeof(uintptr_t)`; every
  `size_t` operation of the source is reduced modulo `2 ^ (8 * W)`, every
  `uint32_t` store modulo `2 ^ 32`.
* The backing file is a length and a byte at every position; `ftruncate` sets the
  length and a grown file reads zero in the new range.
* Each `mmap` call yields a fresh region, recorded with the file offset and the
  length it was asked for (the mapping is `MAP_SHARED`, so a load or store through
  a region is a load or store of the file).  A pointer is a region together with a
  displacement.  The source checks the result of no system call, and neither does
  the embedding: both calls are taken to do what they were asked.
* Undefined behaviour (indexing `blocks_` out of range, `pop_back` on an empty
  vector, touching memory that is not backed by the file) is the result
  `none` / `Abort.Undefined`; `_assert` failures end the process and are reported
  with the state of the file they leave behind.
-/

namespace Cytore

/-! ## Platform and template parameters -/

/-- The two compile-time quantities the code depends on: `W = sizeof(uintptr_t)`
(also the width in bytes of `size_t`) and `base = sizeof(Base_)`. -/
structure Config where
  W : Nat
  base : Nat

/-- Number of bits of `size_t`. -/
def Config.bits (c : Config) : Nat := 8 * c.W

/-- Number of values of `size_t`: arithmetic on `size_t` is modulo this. -/
def Config.SZ (c : Config) : Nat := 2 ^ (8 * c.W)

/-- The value of `static const uint32_t Magic = 'cynd'`: the four characters
packed big end first, `0x63796E64`. -/
def Magic : Nat := 1668902500

/-- The value of `sizeof(Header)`: four `uint32_t` fields. -/
def sizeofHeader : Nat := 16

/-- The constant `Shift_ = 17`. -/
def Shift_ : Nat := 17

/-- The constant `Block_ = 1 << Shift_`, the granule size. -/
def Block_ : Nat := 1 <<< Shift_

/-- The constant `Mask_ = Block_ - 1`. -/
def Mask_ : Nat := Block_ - 1

/-- The function `Round(value, size)` at an unsigned type of `w` bits:
`mask = size - 1`, result `(value + mask) & ~mask`, where `+` and `-` wrap at
`2 ^ w` and `~mask` is the complement within `w` bits. -/
def Round (w value size : Nat) : Nat :=
  let mask := (size + 2 ^ w - 1) % 2 ^ w
  ((value + mask) % 2 ^ w) &&& (2 ^ w - 1 - mask)

/-! ## The backing file and the mappings -/

/-- The backing file: its length (`st_size`) and the byte stored at each position
(a byte is the stored number modulo 256). -/
structure Disk where
  length : Nat
  data : Nat → Nat

/-- The system call `ftruncate(file_, n)`: the length becomes `n`; positions past
the old length read zero. -/
def ftruncate (d : Disk) (n : Nat) : Disk :=
  { length := n, data := fun i => if i < d.length then d.data i else 0 }

/-- What one `mmap(NULL, len, ..., MAP_SHARED, file_, off)` call created. -/
structure Region where
  off : Nat
  len : Nat

/-- A `uint8_t *`: the region it points into (the number of the `mmap` call that
made it) and the displacement from that region's start. -/
structure Ptr where
  region : Nat
  delta : Nat
deriving DecidableEq

/-- The object `File<Base_>` together with the file behind `file_`: the file, the
regions mapped so far and the vector `blocks_`. -/
structure File where
  disk : Disk
  regions : List Region
  blocks_ : List Ptr

/-- The file position a pointer denotes, when it may be dereferenced: the pointer
lies inside its region and the position lies inside the file. -/
def File.resolve (s : File) (p : Ptr) : Option Nat :=
  match s.regions[p.region]? with
  | some r =>
    if p.delta < r.len ∧ r.off + p.delta < s.disk.length then some (r.off + p.delta)
    else none
  | none => none

/-- The `uint32_t` stored at position `a` (native byte order: little end first). -/
def le32 (d : Nat → Nat) (a : Nat) : Nat :=
  d a % 256 + 256 * (d (a + 1) % 256) + 65536 * (d (a + 2) % 256)
    + 16777216 * (d (a + 3) % 256)

/-- The bytes after storing the `uint32_t` value `v` at position `a`. -/
def put32 (d : Nat → Nat) (a v : Nat) : Nat → Nat :=
  fun i =>
    if i = a then v % 256
    else if i = a + 1 then v / 256 % 256
    else if i = a + 2 then v / 65536 % 256
    else if i = a + 3 then v / 16777216 % 256
    else d i

/-- Load of a `uint32_t` through a pointer. -/
def load32 (s : File) (p : Ptr) : Option Nat :=
  match s.resolve p, s.resolve ⟨p.region, p.delta + 3⟩ with
  | some a, some _ => some (le32 s.disk.data a)
  | _, _ => none

/-- Store of a `uint32_t` through a pointer. -/
def store32 (s : File) (p : Ptr) (v : Nat) : Option File :=
  match s.resolve p, s.resolve ⟨p.region, p.delta + 3⟩ with
  | some a, some _ => some { s with disk := { s.disk with data := put32 s.disk.data a v } }
  | _, _ => none

/-- Store of one byte through a pointer. -/
def store8 (s : File) (p : Ptr) (v : Nat) : Option File :=
  match s.resolve p with
  | some a =>
    some { s with
      disk := { s.disk with data := fun i => if i = a then v % 256 else s.disk.data i } }
  | none => none

/-- Load of one byte through a pointer. -/
def load8 (s : File) (p : Ptr) : Option Nat :=
  match s.resolve p with
  | some a => some (s.disk.data a % 256)
  | none => none

/-! ## The class `File<Base_>` -/

/-- The method `Header_()`: the header sits at `blocks_[0]`. -/
def Header_ (s : File) : Option Ptr := s.blocks_[0]?

/-- Read of `Header_().magic_` (field at byte 0). -/
def magic_ (s : File) : Option Nat :=
  match Header_ s with
  | some p => load32 s p
  | none => none

/-- Read of `Header_().version_` (field at byte 4). -/
def version_ (s : File) : Option Nat :=
  match Header_ s with
  | some p => load32 s ⟨p.region, p.delta + 4⟩
  | none => none

/-- Read of `Size_()`, that is `Header_().size_` (field at byte 8). -/
def Size_ (s : File) : Option Nat :=
  match Header_ s with
  | some p => load32 s ⟨p.region, p.delta + 8⟩
  | none => none

/-- Read of `Header_().reserved_` (field at byte 12). -/
def reserved_ (s : File) : Option Nat :=
  match Header_ s with
  | some p => load32 s ⟨p.region, p.delta + 12⟩
  | none => none

/-- The assignment `Header_().magic_ = v`. -/
def setMagic_ (s : File) (v : Nat) : Option File :=
  match Header_ s with
  | some p => store32 s p (v % 2 ^ 32)
  | none => none

/-- The assignment `Size_() = v` (narrowed to `uint32_t`). -/
def setSize_ (s : File) (v : Nat) : Option File :=
  match Header_ s with
  | some p => store32 s ⟨p.region, p.delta + 8⟩ (v % 2 ^ 32)
  | none => none

/-- The method `Capacity()`: `blocks_.size() * Block_` as a `size_t`. -/
def Capacity (c : Config) (s : File) : Nat := (s.blocks_.length * Block_) % c.SZ

/-- The method `Map_(size)`: one `mmap` of `extend = size - before` bytes at file
offset `before`, then one `blocks_` entry per granule of it.  The list `blocks_` and
the address space have no bound here: when `size < before` the subtraction wraps and
the loop appends `extend >> Shift_` entries, however many, where the `push_back` loop
of the source may run out of memory first.  The theorems on growth below are stated
for capacities whose rounding does not wrap, where `size >= before`. -/
def Map_ (c : Config) (s : File) (size : Nat) : File :=
  let before := (s.blocks_.length * Block_) % c.SZ
  let extend := (size + c.SZ - before) % c.SZ
  let data := s.regions.length
  { s with
    regions := s.regions ++ [{ off := before, len := extend }]
    blocks_ := s.blocks_ ++ (List.range (extend >>> Shift_)).map (fun i => ⟨data, Block_ * i⟩) }

/-- The method `Truncate_(capacity)`. -/
def Truncate_ (c : Config) (s : File) (capacity : Nat) : File :=
  let capacity := Round c.bits capacity Block_
  Map_ c { s with disk := ftruncate s.disk capacity } capacity

/-- The method `Reserve(capacity)`; `pop_back` on an empty vector is undefined. -/
def Reserve (c : Config) (s : File) (capacity : Nat) : Option File :=
  if capacity ≤ Capacity c s then some s
  else
    match s.blocks_ with
    | [] => none
    | _ :: _ => some (Truncate_ c { s with blocks_ := s.blocks_.dropLast } capacity)

/-- The method `Get<Target_>(uint32_t offset)`: the pointer
`blocks_[offset >> Shift_] + (offset & Mask_)`. -/
def Get (s : File) (offset : Nat) : Option Ptr :=
  match s.blocks_[offset >>> Shift_]? with
  | some b => some ⟨b.region, b.delta + (offset &&& Mask_)⟩
  | none => none

/-- The local `size_t core(sizeof(Header) + sizeof(Base_))` of `Open`. -/
def core (c : Config) : Nat := (sizeofHeader + c.base) % c.SZ

/-- The local `size` of `New` after its first two statements:
`Round(sizeof(Target_) + extra, sizeof(uintptr_t))` in `size_t`. -/
def rounded (c : Config) (sizeofT extra : Nat) : Nat :=
  Round c.bits ((sizeofT + extra) % c.SZ) c.W

/-- The method `New<Target_>(extra)`, with `sizeofT = sizeof(Target_)`: the
returned offset and the state after the call. -/
def New (c : Config) (s : File) (sizeofT extra : Nat) : Option (Nat × File) :=
  let size := rounded c sizeofT extra
  match Size_ s with
  | none => none
  | some cur =>
    match Reserve c s ((cur + size) % c.SZ) with
    | none => none
    | some s1 =>
      match Size_ s1 with
      | none => none
      | some offset =>
        match setSize_ s1 ((offset + size) % c.SZ) with
        | none => none
        | some s2 => some (offset, s2)

/-- Why a call of `Open` did not return. -/
inductive Abort where
  | CorruptHeader
  | BadMagic
  | UnsupportedVersion
  | Undefined
deriving DecidableEq

/-- A call that did not return: the reason and the file as the call left it. -/
structure Crash where
  why : Abort
  disk : Disk

/-- The method `Open(path)` on a fresh object (`file_ == -1`, no blocks), `disk`
being the file that `open(path, O_RDWR | O_CREAT | O_EXLOCK)` yields (length 0
when it was just created).  The three `_assert`s are `CorruptHeader`, `BadMagic`
and `UnsupportedVersion`. -/
def Open (c : Config) (disk : Disk) : Except Crash File :=
  let s0 : File := { disk := disk, regions := [], blocks_ := [] }
  let size := disk.length % c.SZ
  if size = 0 then
    let s1 := Truncate_ c s0 (core c)
    match setMagic_ s1 Magic with
    | none => .error ⟨.Undefined, s1.disk⟩
    | some s2 =>
      match setSize_ s2 (core c) with
      | none => .error ⟨.Undefined, s2.disk⟩
      | some s3 => .ok s3
  else if size < core c then .error ⟨.CorruptHeader, disk⟩
  else
    let s1 := Truncate_ c s0 size
    match magic_ s1 with
    | none => .error ⟨.Undefined, s1.disk⟩
    | some m =>
      if m ≠ Magic then .error ⟨.BadMagic, s1.disk⟩
      else
        match version_ s1 with
        | none => .error ⟨.Undefined, s1.disk⟩
        | some v =>
          if v ≠ 0 then .error ⟨.UnsupportedVersion, s1.disk⟩
          else .ok s1

/-- The accessor `operator ->`: `&Get<Base_>(sizeof(Header))`. -/
def root (s : File) : Option Ptr := Get s sizeofHeader

/-! ## The state of a heap whose granules cover its file -/

/-- Every `blocks_` entry number `i` is a window onto the file bytes
`[i * Block_, (i + 1) * Block_)`. -/
def Windows (s : File) : Prop :=
  ∀ i p, s.blocks_[i]? = some p →
    ∃ r, s.regions[p.region]? = some r ∧ r.off + p.delta = i * Block_ ∧ p.delta + Block_ ≤ r.len

/-- The state of an open heap: there is at least one granule, the granules are
windows onto consecutive ranges of the file, and together they cover the file,
whose length is a `size_t`. -/
structure Mapped (c : Config) (s : File) : Prop where
  nonempty : s.blocks_ ≠ []
  length_eq : s.disk.length = s.blocks_.length * Block_
  fits : s.disk.length < c.SZ
  windows : Windows s

/-- The facts about a heap that reopening relies on. -/
structure Persistent (c : Config) (s : File) : Prop where
  mapped : Mapped c s
  magic : le32 s.disk.data 0 = Magic
  version : le32 s.disk.data 4 = 0
  core_le : core c ≤ s.disk.length

/-! ## Sequences of calls -/

/-- One call made on an open heap: `New<Target_>(extra)`, `Reserve(capacity)`, or
the store of one byte `Get<uint8_t>(offset) = value`. -/
inductive Op where
  | New (sizeofT extra : Nat)
  | Reserve (capacity : Nat)
  | Put (offset value : Nat)

/-- The state after one call, when the call returns. -/
def step (c : Config) (s : File) : Op → Option File
  | .New t e =>
    match New c s t e with
    | some r => some r.2
    | none => none
  | .Reserve cap => Reserve c s cap
  | .Put o v =>
    match Get s o with
    | some p => store8 s p v
    | none => none

/-- The state after a sequence of calls, when all of them return. -/
def run (c : Config) (s : File) : List Op → Option File
  | [] => some s
  | op :: ops =>
    match step c s op with
    | some s1 => run c s1 ops
    | none => none

/-- Successive `New` calls, given as `(sizeof(Target_), extra)` pairs: the offsets
returned, in order, and the final state. -/
def allocate (c : Config) (s : File) : List (Nat × Nat) → Option (List Nat × File)
  | [] => some ([], s)
  | (t, e) :: rest =>
    match New c s t e with
    | none => none
    | some (o, s1) =>
      match allocate c s1 rest with
      | none => none
      | some (os, s2) => some (o :: os, s2)

/-- The read `Get<uint8_t>(offset)`. -/
def peek (s : File) (offset : Nat) : Option Nat :=
  match Get s offset with
  | some p => load8 s p
  | none => none

/-- The calls of the persistence scenario: any `New`, and stores of bytes of the
root record, which occupies the offsets `[sizeof(Header), sizeof(Header) + base)`. -/
def Op.allocOrRootWrite (c : Config) : Op → Bool
  | .New _ _ => true
  | .Reserve _ => false
  | .Put o _ => decide (sizeofHeader ≤ o ∧ o < sizeofHeader + c.base)

/-- The bytes a call takes from the heap: the rounded size for `New`, nothing
otherwise. -/
def Op.demand (c : Config) : Op → Nat
  | .New t e => rounded c t e
  | .Reserve _ => 0
  | .Put _ _ => 0

/-- The bytes a sequence of calls takes from the heap. -/
def demand (c : Config) : List Op → Nat
  | [] => 0
  | op :: ops => op.demand c + demand c ops

/-! ## Sample platforms, files and heaps -/

/-- A 32-bit platform with a 4-byte root record (`RootRecord{counter:u32}`). -/
def cfg32 : Config := ⟨4, 4⟩

/-- A 64-bit platform with a 4-byte root record. -/
def cfg64 : Config := ⟨8, 4⟩

/-- A 64-bit platform whose root record takes `2 ^ 32 - 16` bytes. -/
def cfgWide : Config := ⟨8, 4294967280⟩

/-- The file `open(..., O_CREAT)` has just created. -/
def emptyDisk : Disk := ⟨0, fun _ => 0⟩

/-- The heap `Open` makes of `emptyDisk` on `cfg64`. -/
def heap64 : File :=
  { disk := ⟨131072, put32 (put32 (ftruncate emptyDisk 131072).data 0 Magic) 8 20⟩,
    regions := [⟨0, 131072⟩], blocks_ := [⟨0, 0⟩] }

/-- The bytes of a header with the given `size_` field, `magic_ = Magic`,
`version_ = 0`, `reserved_ = 0`, followed by zeros. -/
def headerBytes (size : Nat) : Nat → Nat := put32 (put32 (fun _ => 0) 0 Magic) 8 size

/-- One granule with a valid header whose `size_` field is `2 ^ 32 - 16`. -/
def diskHighWater : Disk := ⟨131072, headerBytes 4294967280⟩

/-- A file of `2 ^ 32 - 1` bytes with a valid header. -/
def diskHuge : Disk := ⟨4294967295, headerBytes 20⟩

/-- A file of 20 zero bytes. -/
def diskZeros : Disk := ⟨20, fun _ => 0⟩

/-- One granule with a valid header whose `size_` field is 0. -/
def diskSizeZero : Disk := ⟨131072, headerBytes 0⟩

/-- A 64-bit platform with an 8-byte root record. -/
def cfg64r8 : Config := ⟨8, 8⟩

/-- The heap `Open` makes of `emptyDisk` on `cfg64r8`. -/
def heap64r8 : File :=
  { disk := ⟨131072, put32 (put32 (ftruncate emptyDisk 131072).data 0 Magic) 8 24⟩,
    regions := [⟨0, 131072⟩], blocks_ := [⟨0, 0⟩] }

/-- One granule with a valid header whose `size_` field is 1000000, beyond the end
of the file. -/
def diskAhead : Disk := ⟨131072, headerBytes 1000000⟩

/-! ## The class `Offset<Target_>` -/

/-- The class `Offset<Target_>`: one `uint32_t`.  (`New` is embedded as returning
the raw number it passes to the constructor `Offset<Target_>(offset)`.) -/
structure Offset where
  offset_ : Nat
deriving DecidableEq

/-- The constructor `Offset()`. -/
def Offset.init : Offset := ⟨0⟩

/-- The assignment `operator =(uint32_t offset)`. -/
def Offset.assign (_ : Offset) (offset : Nat) : Offset := ⟨offset⟩

/-- The method `GetOffset()`. -/
def Offset.GetOffset (ref : Offset) : Nat := ref.offset_

/-- The method `IsNull()`. -/
def Offset.IsNull (ref : Offset) : Bool := ref.offset_ == 0

/-- The method `Get<Target_>(Offset<Target_> &ref)`. -/
def Get_ref (s : File) (ref : Offset) : Option Ptr := Get s ref.GetOffset

/-! ## Regions laid end to end -/

/-- The rounded sizes of successive `New` calls. -/
def sizes (c : Config) (reqs : List (Nat × Nat)) : List Nat :=
  reqs.map (fun q => rounded c q.1 q.2)

/-- The bytes successive `New` calls take in all. -/
def total (c : Config) (reqs : List (Nat × Nat)) : Nat := (sizes c reqs).sum

/-- The starts of regions of the given sizes laid end to end from `a`. -/
def starts (a : Nat) : List Nat → List Nat
  | [] => []
  | r :: rs => a :: starts (a + r) rs

/-- The regions `(start, size)` tile `[a, b)` in order: the first starts at `a`,
each next one starts where the one before ends, and the last ends at `b`. -/
def Tiles : Nat → List (Nat × Nat) → Nat → Prop
  | a, [], b => a = b
  | a, p :: rest, b => p.1 = a ∧ Tiles (p.1 + p.2) rest b

instance Tiles.decide : ∀ (a : Nat) (l : List (Nat × Nat)) (b : Nat), Decidable (Tiles a l b)
  | a, [], b => inferInstanceAs (Decidable (a = b))
  | a, p :: rest, b =>
    @instDecidableAnd _ _ (inferInstanceAs (Decidable (p.1 = a))) (Tiles.decide (p.1 + p.2) rest b)

/-! # Theorems -/

/-! ## Arithmetic of the constants and of `Round` -/

theorem Block_val : Block_ = 131072 := by decide

theorem Mask_val : Mask_ = 131071 := by decide

theorem Config.SZ_cases (c : Config) (hW : c.W = 4 ∨ c.W = 8) :
    c.SZ = 4294967296 ∨ c.SZ = 18446744073709551616 := by
  rcases hW with h | h
  · left; simp [Config.SZ, h]
  · right; simp [Config.SZ, h]

theorem and_compl_low (w k x : Nat) (hk : k ≤ w) (hx : x < 2 ^ w) :
    x &&& (2 ^ w - 1 - (2 ^ k - 1)) = x / 2 ^ k * 2 ^ k := by
  have hpos : 0 < 2 ^ k := Nat.two_pow_pos k
  have hle : 2 ^ k ≤ 2 ^ w := Nat.pow_le_pow_right (by decide) hk
  have e : 2 ^ w - 1 - (2 ^ k - 1) = 2 ^ w - ((2 ^ k - 1) + 1) := by omega
  apply Nat.eq_of_testBit_eq
  intro i
  rw [e, Nat.testBit_and, Nat.testBit_two_pow_sub_succ (by omega), Nat.testBit_two_pow_sub_one,
    Nat.mul_comm, Nat.testBit_mul_pow_two, ← Nat.shiftRight_eq_div_pow, Nat.testBit_shiftRight]
  by_cases h1 : i < k
  · simp [h1, Nat.not_le_of_lt h1]
  · have h2 : k ≤ i := Nat.le_of_not_lt h1
    by_cases h3 : i < w
    · simp [h1, h2, h3, Nat.add_sub_cancel' h2]
    · have : x < 2 ^ i :=
        Nat.lt_of_lt_of_le hx (Nat.pow_le_pow_right (by decide) (Nat.le_of_not_lt h3))
      simp [h1, h2, h3, Nat.add_sub_cancel' h2, Nat.testBit_lt_two_pow this]

/-- At a power of two `Round` clears the low bits of `value + (size - 1)`. -/
theorem Round_pow (w k v : Nat) (hk : k ≤ w) :
    Round w v (2 ^ k) = (v + (2 ^ k - 1)) % 2 ^ w / 2 ^ k * 2 ^ k := by
  have hpos : 0 < 2 ^ k := Nat.two_pow_pos k
  have hle : 2 ^ k ≤ 2 ^ w := Nat.pow_le_pow_right (by decide) hk
  have hm : (2 ^ k + 2 ^ w - 1) % 2 ^ w = 2 ^ k - 1 := by
    have : 2 ^ k + 2 ^ w - 1 = (2 ^ k - 1) + 2 ^ w := by omega
    rw [this, Nat.add_mod_right, Nat.mod_eq_of_lt (by omega)]
  unfold Round
  simp only [hm]
  exact and_compl_low w k _ hk (Nat.mod_lt _ (Nat.two_pow_pos w))

/-- Rounding to the granule size, in `size_t`. -/
theorem Round_block (c : Config) (hW : c.W = 4 ∨ c.W = 8) (v : Nat) :
    Round c.bits v Block_ = (v + 131071) % c.SZ / 131072 * 131072 := by
  have h := Round_pow c.bits 17 v (by rcases hW with h | h <;> simp [Config.bits, h])
  have e : (2 : Nat) ^ 17 = 131072 := by norm_num
  rw [e] at h
  rw [Block_val, h]
  rfl

/-- Rounding to the word size, in `size_t`. -/
theorem Round_word (c : Config) (hW : c.W = 4 ∨ c.W = 8) (v : Nat) :
    Round c.bits v c.W = (v + (c.W - 1)) % c.SZ / c.W * c.W := by
  rcases hW with h | h
  · have := Round_pow c.bits 2 v (by simp [Config.bits, h])
    simpa [h, Config.SZ, Config.bits] using this
  · have := Round_pow c.bits 3 v (by simp [Config.bits, h])
    simpa [h, Config.SZ, Config.bits] using this

/-! ## Little-endian words -/

theorem le32_lt (d : Nat → Nat) (a : Nat) : le32 d a < 4294967296 := by
  unfold le32; omega

theorem le32_put32_same (d : Nat → Nat) (a v : Nat) (hv : v < 4294967296) :
    le32 (put32 d a v) a = v := by
  simp [le32, put32]; omega

theorem le32_put32_other (d : Nat → Nat) (a b v : Nat) (h : b + 3 < a ∨ a + 3 < b) :
    le32 (put32 d a v) b = le32 d b := by
  have h0 : b ≠ a := by omega
  have h1 : ¬ (b = a + 1) := by omega
  have h2 : ¬ (b = a + 2) := by omega
  have h3 : ¬ (b = a + 3) := by omega
  have h4 : ¬ (b + 1 = a) := by omega
  have h5 : ¬ (b + 2 = a) := by omega
  have h6 : ¬ (b + 3 = a) := by omega
  have h7 : ¬ (b + 1 = a + 2) := by omega
  have h8 : ¬ (b + 1 = a + 3) := by omega
  have h9 : ¬ (b + 2 = a + 1) := by omega
  have h10 : ¬ (b + 2 = a + 3) := by omega
  have h11 : ¬ (b + 3 = a + 1) := by omega
  have h12 : ¬ (b + 3 = a + 2) := by omega
  have h13 : ¬ (b = a) := by omega
  simp [le32, put32, h0, h1, h2, h3, h4, h5, h6, h7, h8, h9, h10, h11, h12]

theorem le32_congr (d e : Nat → Nat) (a : Nat)
    (h : ∀ i, a ≤ i → i < a + 4 → d i = e i) : le32 d a = le32 e a := by
  simp [le32, h a (by omega) (by omega), h (a + 1) (by omega) (by omega),
    h (a + 2) (by omega) (by omega), h (a + 3) (by omega) (by omega)]

theorem Mapped.capacity {c : Config} {s : File} (h : Mapped c s) :
    Capacity c s = s.disk.length := by
  unfold Capacity
  rw [← h.length_eq]
  exact Nat.mod_eq_of_lt h.fits

theorem Mapped.length_ge {c : Config} {s : File} (h : Mapped c s) : 131072 ≤ s.disk.length := by
  have h1 := h.length_eq
  have h2 : 0 < s.blocks_.length := List.length_pos.mpr h.nonempty
  rw [Block_val] at h1
  omega

/-- Through an entry of `blocks_` every byte of its granule lies in the file. -/
theorem Windows.resolve {s : File} (h : Windows s) {i : Nat} {p : Ptr}
    (hp : s.blocks_[i]? = some p) (hlen : s.blocks_.length * Block_ ≤ s.disk.length)
    (k : Nat) (hk : k < Block_) :
    s.resolve ⟨p.region, p.delta + k⟩ = some (i * Block_ + k) := by
  obtain ⟨r, hr, hoff, hle⟩ := h i p hp
  have hi : i < s.blocks_.length := by
    rcases Nat.lt_or_ge i s.blocks_.length with h' | h'
    · exact h'
    · rw [List.getElem?_eq_none h'] at hp; cases hp
  have hmul : (i + 1) * Block_ ≤ s.blocks_.length * Block_ := Nat.mul_le_mul_right _ hi
  have e : (i + 1) * Block_ = i * Block_ + Block_ := by ring
  unfold File.resolve
  simp only [hr]
  rw [if_pos (by constructor <;> omega)]
  congr 1
  omega

theorem Mapped.header {c : Config} {s : File} (h : Mapped c s) :
    ∃ p, Header_ s = some p ∧
      ∀ k, k + 3 < Block_ → s.resolve ⟨p.region, p.delta + k⟩ = some k ∧
        s.resolve ⟨p.region, p.delta + k + 3⟩ = some (k + 3) := by
  obtain ⟨p, hp⟩ : ∃ p, s.blocks_[0]? = some p := by
    cases hb : s.blocks_ with
    | nil => exact absurd hb h.nonempty
    | cons a l => exact ⟨a, by simp⟩
  refine ⟨p, hp, fun k hk => ?_⟩
  have h1 := h.windows.resolve hp (Nat.le_of_eq h.length_eq.symm) k (by omega)
  have h2 := h.windows.resolve hp (Nat.le_of_eq h.length_eq.symm) (k + 3) hk
  simp only [Nat.zero_mul, Nat.zero_add] at h1 h2
  exact ⟨h1, by rw [← Nat.add_assoc] at h2; exact h2⟩

theorem Mapped.load32 {c : Config} {s : File} (h : Mapped c s) {p : Ptr}
    (hp : Header_ s = some p) (k : Nat) (hk : k + 3 < Block_) :
    load32 s ⟨p.region, p.delta + k⟩ = some (le32 s.disk.data k) := by
  obtain ⟨q, hq, hres⟩ := h.header
  rw [hp] at hq
  cases hq
  obtain ⟨h1, h2⟩ := hres k hk
  simp [Cytore.load32, h1, h2]

theorem Mapped.store32 {c : Config} {s : File} (h : Mapped c s) {p : Ptr}
    (hp : Header_ s = some p) (k v : Nat) (hk : k + 3 < Block_) :
    store32 s ⟨p.region, p.delta + k⟩ v =
      some { s with disk := { s.disk with data := put32 s.disk.data k v } } := by
  obtain ⟨q, hq, hres⟩ := h.header
  rw [hp] at hq
  cases hq
  obtain ⟨h1, h2⟩ := hres k hk
  simp [Cytore.store32, h1, h2]

theorem Mapped.magic {c : Config} {s : File} (h : Mapped c s) :
    magic_ s = some (le32 s.disk.data 0) := by
  obtain ⟨p, hp, _⟩ := h.header
  have := h.load32 hp 0 (by decide)
  simpa [magic_, hp] using this

theorem Mapped.version {c : Config} {s : File} (h : Mapped c s) :
    version_ s = some (le32 s.disk.data 4) := by
  obtain ⟨p, hp, _⟩ := h.header
  have := h.load32 hp 4 (by decide)
  simpa [version_, hp] using this

theorem Mapped.size {c : Config} {s : File} (h : Mapped c s) :
    Size_ s = some (le32 s.disk.data 8) := by
  obtain ⟨p, hp, _⟩ := h.header
  have := h.load32 hp 8 (by decide)
  simpa [Size_, hp] using this

theorem Mapped.reserved {c : Config} {s : File} (h : Mapped c s) :
    reserved_ s = some (le32 s.disk.data 12) := by
  obtain ⟨p, hp, _⟩ := h.header
  have := h.load32 hp 12 (by decide)
  simpa [reserved_, hp] using this

theorem Mapped.setMagic {c : Config} {s : File} (h : Mapped c s) (v : Nat) :
    setMagic_ s v =
      some { s with disk := { s.disk with data := put32 s.disk.data 0 (v % 2 ^ 32) } } := by
  obtain ⟨p, hp, _⟩ := h.header
  have := h.store32 hp 0 (v % 2 ^ 32) (by decide)
  simpa [setMagic_, hp] using this

theorem Mapped.setSize {c : Config} {s : File} (h : Mapped c s) (v : Nat) :
    setSize_ s v =
      some { s with disk := { s.disk with data := put32 s.disk.data 8 (v % 2 ^ 32) } } := by
  obtain ⟨p, hp, _⟩ := h.header
  have := h.store32 hp 8 (v % 2 ^ 32) (by decide)
  simpa [setSize_, hp] using this

/-- A store into the file leaves a heap mapped. -/
theorem Mapped.with_data {c : Config} {s : File} (h : Mapped c s) (f : Nat → Nat) :
    Mapped c { s with disk := { s.disk with data := f } } :=
  ⟨h.nonempty, h.length_eq, h.fits, h.windows⟩

/-! ## `Map_`, `Truncate_` and `Reserve` -/

theorem Round_block_dvd (c : Config) (hW : c.W = 4 ∨ c.W = 8) (v : Nat) :
    Round c.bits v Block_ % 131072 = 0 ∧ Round c.bits v Block_ < c.SZ := by
  rw [Round_block c hW]
  rcases c.SZ_cases hW with h | h <;> rw [h] <;> omega

theorem Truncate_disk (c : Config) (s : File) (cap : Nat) :
    (Truncate_ c s cap).disk = ftruncate s.disk (Round c.bits cap Block_) := rfl

theorem Truncate_regions (c : Config) (s : File) (cap : Nat) :
    (Truncate_ c s cap).regions = s.regions ++
      [{ off := (s.blocks_.length * Block_) % c.SZ,
         len := (Round c.bits cap Block_ + c.SZ - (s.blocks_.length * Block_) % c.SZ) % c.SZ }] :=
  rfl

theorem Truncate_blocks (c : Config) (s : File) (cap : Nat) :
    (Truncate_ c s cap).blocks_ = s.blocks_ ++
      (List.range (((Round c.bits cap Block_ + c.SZ - (s.blocks_.length * Block_) % c.SZ) % c.SZ)
        >>> Shift_)).map (fun i => (⟨s.regions.length, Block_ * i⟩ : Ptr)) :=
  rfl

/-- After `Truncate_` the file length and `Capacity()` are both the rounded
capacity, whatever the state before. -/
theorem Truncate_capacity (c : Config) (hW : c.W = 4 ∨ c.W = 8) (s : File) (cap : Nat) :
    (Truncate_ c s cap).disk.length = Round c.bits cap Block_ ∧
    Capacity c (Truncate_ c s cap) = Round c.bits cap Block_ := by
  refine ⟨rfl, ?_⟩
  obtain ⟨hd, hlt⟩ := Round_block_dvd c hW cap
  unfold Capacity
  rw [Truncate_blocks]
  simp only [List.length_append, List.length_map, List.length_range]
  generalize Round c.bits cap Block_ = R at hd hlt ⊢
  generalize s.blocks_.length = m
  simp only [Shift_, Nat.shiftRight_eq_div_pow, Block_val]
  norm_num
  rcases c.SZ_cases hW with h | h <;> rw [h] at hlt ⊢ <;> omega

/-- When the rounded capacity is at least what is mapped already and is not zero,
`Truncate_` yields a mapped heap that keeps every entry of `blocks_` and every
byte of the file. -/
theorem Truncate_mapped (c : Config) (hW : c.W = 4 ∨ c.W = 8) (s : File) (cap : Nat)
    (hwin : Windows s) (hle : s.blocks_.length * Block_ ≤ Round c.bits cap Block_)
    (hpos : 0 < Round c.bits cap Block_) :
    Mapped c (Truncate_ c s cap) ∧
    (Truncate_ c s cap).blocks_.length * Block_ = Round c.bits cap Block_ ∧
    (Truncate_ c s cap).blocks_ = s.blocks_ ++
      (List.range ((Round c.bits cap Block_ - s.blocks_.length * 131072) / 131072)).map
        (fun i => (⟨s.regions.length, Block_ * i⟩ : Ptr)) ∧
    (Truncate_ c s cap).regions = s.regions ++
      [{ off := s.blocks_.length * 131072,
         len := Round c.bits cap Block_ - s.blocks_.length * 131072 }] := by
  obtain ⟨hd, hlt⟩ := Round_block_dvd c hW cap
  have hb := Truncate_blocks c s cap
  have hr := Truncate_regions c s cap
  have hlen : (Truncate_ c s cap).disk.length = Round c.bits cap Block_ := rfl
  generalize Round c.bits cap Block_ = R at hd hlt hb hr hle hpos hlen ⊢
  generalize hm : s.blocks_.length = m at hb hr hle
  rw [Block_val] at hle
  have hbefore : (m * Block_) % c.SZ = m * 131072 := by
    rw [Block_val]; exact Nat.mod_eq_of_lt (by omega)
  have hext : (R + c.SZ - m * 131072) % c.SZ = R - m * 131072 := by
    have : R + c.SZ - m * 131072 = (R - m * 131072) + c.SZ := by omega
    rw [this, Nat.add_mod_right, Nat.mod_eq_of_lt (by omega)]
  rw [hbefore, hext] at hb hr
  have hsh : (R - m * 131072) >>> Shift_ = (R - m * 131072) / 131072 := by
    simp [Shift_, Nat.shiftRight_eq_div_pow]
  rw [hsh] at hb
  have hcount : (Truncate_ c s cap).blocks_.length * Block_ = R := by
    rw [hb]
    simp only [List.length_append, List.length_map, List.length_range, Block_val, hm]
    omega
  refine ⟨⟨?_, ?_, ?_, ?_⟩, hcount, ?_, ?_⟩
  · intro h0
    rw [h0] at hcount
    simp at hcount
    omega
  · rw [hcount, hlen]
  · rw [hlen]; exact hlt
  · intro i p hp
    rw [hb] at hp
    rw [hr]
    rcases Nat.lt_or_ge i s.blocks_.length with hi | hi
    · rw [List.getElem?_append_left hi] at hp
      obtain ⟨r, hr1, hr2, hr3⟩ := hwin i p hp
      refine ⟨r, ?_, hr2, hr3⟩
      have hlt2 : p.region < s.regions.length := by
        rcases Nat.lt_or_ge p.region s.regions.length with h' | h'
        · exact h'
        · rw [List.getElem?_eq_none h'] at hr1; cases hr1
      rw [List.getElem?_append_left hlt2]
      exact hr1
    · rw [List.getElem?_append_right hi, List.getElem?_map] at hp
      have hj : i - s.blocks_.length < (R - m * 131072) / 131072 := by
        rcases Nat.lt_or_ge (i - s.blocks_.length) ((R - m * 131072) / 131072) with h' | h'
        · exact h'
        · rw [List.getElem?_eq_none (by simpa using h')] at hp; cases hp
      rw [List.getElem?_range hj] at hp
      simp only [Option.map_some', Option.some.injEq] at hp
      subst hp
      refine ⟨_, List.getElem?_concat_length _ _, ?_, ?_⟩
      · show m * 131072 + Block_ * (i - s.blocks_.length) = i * Block_
        rw [Block_val]
        omega
      · show Block_ * (i - s.blocks_.length) + Block_ ≤ R - m * 131072
        rw [Block_val]
        omega
  · exact hb
  · exact hr

theorem Windows.dropLast {s : File} (h : Windows s) :
    Windows { s with blocks_ := s.blocks_.dropLast } := by
  intro i p hp
  apply h i p
  simp only [List.getElem?_dropLast] at hp
  split at hp
  · exact hp
  · cases hp

theorem Reserve_noop (c : Config) (s : File) (cap : Nat) (h : cap ≤ Capacity c s) :
    Reserve c s cap = some s := by
  simp [Reserve, h]

theorem Reserve_grow (c : Config) (s : File) (cap : Nat) (h : Capacity c s < cap)
    (hne : s.blocks_ ≠ []) :
    Reserve c s cap = some (Truncate_ c { s with blocks_ := s.blocks_.dropLast } cap) := by
  unfold Reserve
  rw [if_neg (by omega)]
  cases hb : s.blocks_ with
  | nil => exact absurd hb hne
  | cons a l => rfl

/-- The result of `Reserve` on a mapped heap when the rounding of the capacity to
the granule size does not wrap around `size_t`. -/
theorem Reserve_mapped (c : Config) (hW : c.W = 4 ∨ c.W = 8) (s : File) (cap : Nat)
    (hs : Mapped c s) (hcap : cap ≤ Capacity c s ∨ cap + 131071 < c.SZ) :
    ∃ s1, Reserve c s cap = some s1 ∧ Mapped c s1 ∧ s.disk.length ≤ s1.disk.length ∧
      cap ≤ s1.disk.length ∧ s1.disk.length = max s.disk.length (Round c.bits cap Block_) ∧
      (∀ i, i < s.disk.length → s1.disk.data i = s.disk.data i) := by
  have hC := hs.capacity
  have hR := Round_block c hW cap
  have hlen := hs.length_eq
  have hfit := hs.fits
  rw [Block_val] at hlen
  rcases Nat.lt_or_ge (Capacity c s) cap with hlt | hge
  · have hwrap : cap + 131071 < c.SZ := by
      rcases hcap with h | h
      · omega
      · exact h
    rw [Nat.mod_eq_of_lt hwrap] at hR
    have hn : 0 < s.blocks_.length := List.length_pos.mpr hs.nonempty
    have hT := Truncate_mapped c hW { s with blocks_ := s.blocks_.dropLast } cap
      hs.windows.dropLast
      (by
        simp only [List.length_dropLast]
        rw [hR, Block_val]
        omega)
      (by rw [hR]; omega)
    refine ⟨_, Reserve_grow c s cap hlt hs.nonempty, hT.1, ?_, ?_, ?_, ?_⟩
    · show s.disk.length ≤ Round c.bits cap Block_
      rw [hR]; omega
    · show cap ≤ Round c.bits cap Block_
      rw [hR]; omega
    · show Round c.bits cap Block_ = max s.disk.length (Round c.bits cap Block_)
      rw [hR]; omega
    · intro i hi
      show (if i < s.disk.length then s.disk.data i else 0) = s.disk.data i
      rw [if_pos hi]
  · refine ⟨s, Reserve_noop c s cap hge, hs, Nat.le_refl _, by omega, ?_, fun _ _ => rfl⟩
    rw [hR]
    have h1 : (cap + 131071) % c.SZ ≤ cap + 131071 := Nat.mod_le _ _
    omega

/-- A file of length zero backs no memory: the header cannot be read. -/
theorem Size_none_of_length_zero (s : File) (h : s.disk.length = 0) : Size_ s = none := by
  unfold Size_
  cases Header_ s with
  | none => rfl
  | some p =>
    simp only [load32, File.resolve, h]
    cases s.regions[p.region]? <;> simp

/-- When `Reserve` has to grow and the rounding wraps around `size_t`, the file is
truncated to length zero. -/
theorem Reserve_wrap (c : Config) (hW : c.W = 4 ∨ c.W = 8) (s : File) (cap : Nat)
    (hlt : Capacity c s < cap) (hcap : cap < c.SZ) (hwrap : c.SZ ≤ cap + 131071) (s1 : File)
    (h : Reserve c s cap = some s1) : s1.disk.length = 0 := by
  have hR := Round_block c hW cap
  unfold Reserve at h
  rw [if_neg (by omega)] at h
  cases hb : s.blocks_ with
  | nil => rw [hb] at h; cases h
  | cons a l =>
    rw [hb] at h
    simp only [Option.some.injEq] at h
    subst h
    show Round c.bits cap Block_ = 0
    rw [hR]
    rcases c.SZ_cases hW with h | h <;> rw [h] at hcap hwrap ⊢ <;> omega

/-! ## `New` -/

theorem rounded_lt (c : Config) (hW : c.W = 4 ∨ c.W = 8) (t e : Nat) :
    rounded c t e < c.SZ ∧ rounded c t e % c.W = 0 := by
  unfold rounded
  rw [Round_word c hW]
  generalize (t + e) % c.SZ = v
  rcases hW with h | h
  · simp only [Config.SZ, h]; norm_num; omega
  · simp only [Config.SZ, h]; norm_num; omega

/-- The result of `New` on a mapped heap when `Reserve` does not wrap:
the offset is the old `size_`, and only the `size_` field of the existing file
bytes changes. -/
theorem New_mapped (c : Config) (hW : c.W = 4 ∨ c.W = 8) (s : File) (t e : Nat)
    (hs : Mapped c s)
    (hcap : (le32 s.disk.data 8 + rounded c t e) % c.SZ ≤ Capacity c s ∨
      (le32 s.disk.data 8 + rounded c t e) % c.SZ + 131071 < c.SZ) :
    ∃ s2, New c s t e = some (le32 s.disk.data 8, s2) ∧ Mapped c s2 ∧
      s2.disk.length =
        max s.disk.length
          (Round c.bits ((le32 s.disk.data 8 + rounded c t e) % c.SZ) Block_) ∧
      (le32 s.disk.data 8 + rounded c t e) % c.SZ ≤ s2.disk.length ∧
      le32 s2.disk.data 8 = (le32 s.disk.data 8 + rounded c t e) % c.SZ % 2 ^ 32 ∧
      (∀ i, i < s.disk.length → (i < 8 ∨ 12 ≤ i) → s2.disk.data i = s.disk.data i) := by
  obtain ⟨s1, h1, hm1, hlen1, hreq1, hmax1, hdata1⟩ := Reserve_mapped c hW s _ hs hcap
  have hl := hs.length_ge
  have hsz1 : Size_ s1 = some (le32 s.disk.data 8) := by
    rw [hm1.size]
    congr 1
    exact le32_congr _ _ _ (fun i _ _ => hdata1 i (by omega))
  refine ⟨_, ?_, hm1.with_data
    (put32 s1.disk.data 8 ((le32 s.disk.data 8 + rounded c t e) % c.SZ % 2 ^ 32)),
    hmax1, hreq1, ?_, ?_⟩
  · unfold New
    simp only [hs.size, h1, hsz1, hm1.setSize]
  · show le32 (put32 s1.disk.data 8 _) 8 = _
    rw [le32_put32_same]
    exact Nat.mod_lt _ (by norm_num)
  · intro i hi hne
    show put32 s1.disk.data 8 _ i = _
    have e1 : ¬ i = 8 := by omega
    have e2 : ¬ i = 8 + 1 := by omega
    have e3 : ¬ i = 8 + 2 := by omega
    have e4 : ¬ i = 8 + 3 := by omega
    simp only [put32, e1, e2, e3, e4, if_false]
    exact hdata1 i hi

/-- On a mapped heap `New` returns only when `Reserve` did not wrap. -/
theorem New_some_fits (c : Config) (hW : c.W = 4 ∨ c.W = 8) (s : File) (t e : Nat)
    (hs : Mapped c s) (r : Nat × File) (h : New c s t e = some r) :
    (le32 s.disk.data 8 + rounded c t e) % c.SZ ≤ Capacity c s ∨
      (le32 s.disk.data 8 + rounded c t e) % c.SZ + 131071 < c.SZ := by
  by_contra hcon
  have hlt : Capacity c s < (le32 s.disk.data 8 + rounded c t e) % c.SZ := by omega
  have hwrap : c.SZ ≤ (le32 s.disk.data 8 + rounded c t e) % c.SZ + 131071 := by omega
  have hpos : 0 < c.SZ := by rcases c.SZ_cases hW with h | h <;> omega
  unfold New at h
  simp only [hs.size] at h
  cases hr : Reserve c s ((le32 s.disk.data 8 + rounded c t e) % c.SZ) with
  | none => simp [hr] at h
  | some s1 =>
    have h0 := Reserve_wrap c hW s _ hlt (Nat.mod_lt _ hpos) hwrap s1 hr
    simp [hr, Size_none_of_length_zero s1 h0] at h

/-! ## `Open` -/

theorem Windows.nil (d : Disk) : Windows { disk := d, regions := [], blocks_ := [] } := by
  intro i p hp
  simp at hp

/-- The state `Truncate_` builds from the fresh object. -/
theorem Truncate_fresh (c : Config) (hW : c.W = 4 ∨ c.W = 8) (d : Disk) (cap : Nat)
    (hpos : 0 < Round c.bits cap Block_) :
    Mapped c (Truncate_ c { disk := d, regions := [], blocks_ := [] } cap) ∧
    (Truncate_ c { disk := d, regions := [], blocks_ := [] } cap).regions
      = [{ off := 0, len := Round c.bits cap Block_ }] := by
  have h := Truncate_mapped c hW { disk := d, regions := [], blocks_ := [] } cap
    (Windows.nil d) (by simp) hpos
  refine ⟨h.1, ?_⟩
  obtain ⟨_, hlt⟩ := Round_block_dvd c hW cap
  rw [Truncate_regions]
  simp only [List.length_nil, Nat.zero_mul, Nat.zero_mod, Nat.sub_zero, List.nil_append,
    Nat.add_mod_right, Nat.mod_eq_of_lt hlt]

/-- A fresh object truncated to capacity zero has no granule. -/
theorem Truncate_fresh_zero (c : Config) (hW : c.W = 4 ∨ c.W = 8) (d : Disk) (cap : Nat)
    (h0 : Round c.bits cap Block_ = 0) :
    (Truncate_ c { disk := d, regions := [], blocks_ := [] } cap).blocks_ = [] := by
  have hpos : 0 < c.SZ := by rcases c.SZ_cases hW with h | h <;> omega
  rw [Truncate_blocks, h0]
  simp [Nat.mod_self]

/-- The branch `size == 0` of `Open`. -/
theorem Open_created (c : Config) (hW : c.W = 4 ∨ c.W = 8) (disk : Disk)
    (h0 : disk.length % c.SZ = 0) (hpos : 0 < Round c.bits (core c) Block_) :
    ∃ s, Open c disk = .ok s ∧ Mapped c s ∧
      s.disk.length = Round c.bits (core c) Block_ ∧
      s.regions = [{ off := 0, len := Round c.bits (core c) Block_ }] ∧
      s.disk.data =
        put32 (put32 (ftruncate disk (Round c.bits (core c) Block_)).data 0 Magic) 8
          (core c % 2 ^ 32) := by
  obtain ⟨hm1, hr1⟩ := Truncate_fresh c hW disk (core c) hpos
  have hm2 := hm1.with_data
    (put32 (Truncate_ c { disk := disk, regions := [], blocks_ := [] } (core c)).disk.data 0
      (Magic % 2 ^ 32))
  have hm3 := hm2.with_data
    (put32 (put32 (Truncate_ c { disk := disk, regions := [], blocks_ := [] } (core c)).disk.data
      0 (Magic % 2 ^ 32)) 8 (core c % 2 ^ 32))
  refine ⟨_, ?_, hm3, rfl, hr1, rfl⟩
  unfold Open
  simp only [h0, if_true, hm1.setMagic, hm2.setSize]

/-- The branch `size == 0` of `Open` when rounding `core` yields zero. -/
theorem Open_created_wrap (c : Config) (hW : c.W = 4 ∨ c.W = 8) (disk : Disk)
    (h0 : disk.length % c.SZ = 0) (hz : Round c.bits (core c) Block_ = 0) :
    Open c disk = .error ⟨.Undefined, ftruncate disk 0⟩ := by
  have hb := Truncate_fresh_zero c hW disk (core c) hz
  have hd := Truncate_disk c { disk := disk, regions := [], blocks_ := [] } (core c)
  rw [hz] at hd
  unfold Open
  simp only [h0, if_true, setMagic_, Header_, hb, hd]
  rfl

/-- The branch `size != 0` of `Open`, past the length check. -/
theorem Open_existing (c : Config) (hW : c.W = 4 ∨ c.W = 8) (disk : Disk)
    (h0 : disk.length % c.SZ ≠ 0) (hcore : core c ≤ disk.length % c.SZ)
    (hpos : 0 < Round c.bits (disk.length % c.SZ) Block_) :
    Mapped c (Truncate_ c { disk := disk, regions := [], blocks_ := [] } (disk.length % c.SZ)) ∧
    Open c disk =
      if le32 (ftruncate disk (Round c.bits (disk.length % c.SZ) Block_)).data 0 ≠ Magic then
        .error ⟨.BadMagic, ftruncate disk (Round c.bits (disk.length % c.SZ) Block_)⟩
      else if le32 (ftruncate disk (Round c.bits (disk.length % c.SZ) Block_)).data 4 ≠ 0 then
        .error ⟨.UnsupportedVersion, ftruncate disk (Round c.bits (disk.length % c.SZ) Block_)⟩
      else .ok (Truncate_ c { disk := disk, regions := [], blocks_ := [] }
        (disk.length % c.SZ)) := by
  obtain ⟨hm1, _⟩ := Truncate_fresh c hW disk (disk.length % c.SZ) hpos
  refine ⟨hm1, ?_⟩
  unfold Open
  simp only [h0, if_false, Nat.not_lt.mpr hcore, hm1.magic, hm1.version, Truncate_disk]

/-- The branch `size != 0` of `Open` when the length check fails. -/
theorem Open_short (c : Config) (disk : Disk)
    (h0 : disk.length % c.SZ ≠ 0) (hcore : disk.length % c.SZ < core c) :
    Open c disk = .error ⟨.CorruptHeader, disk⟩ := by
  unfold Open
  simp only [h0, if_false, hcore, if_true]

/-- The branch `size != 0` of `Open` when rounding the length yields zero. -/
theorem Open_existing_wrap (c : Config) (hW : c.W = 4 ∨ c.W = 8) (disk : Disk)
    (h0 : disk.length % c.SZ ≠ 0) (hcore : core c ≤ disk.length % c.SZ)
    (hz : Round c.bits (disk.length % c.SZ) Block_ = 0) :
    Open c disk = .error ⟨.Undefined, ftruncate disk 0⟩ := by
  have hb := Truncate_fresh_zero c hW disk (disk.length % c.SZ) hz
  have hd := Truncate_disk c { disk := disk, regions := [], blocks_ := [] } (disk.length % c.SZ)
  rw [hz] at hd
  unfold Open
  simp only [h0, if_false, Nat.not_lt.mpr hcore, magic_, Header_, hb, hd]
  rfl

/-- Whenever `Open` returns, the heap is mapped. -/
theorem Open_ok_mapped (c : Config) (hW : c.W = 4 ∨ c.W = 8) (disk : Disk) (s : File)
    (h : Open c disk = .ok s) : Mapped c s := by
  by_cases h0 : disk.length % c.SZ = 0
  · rcases Nat.eq_zero_or_pos (Round c.bits (core c) Block_) with hz | hpos
    · rw [Open_created_wrap c hW disk h0 hz] at h; cases h
    · obtain ⟨s', hs', hm, _⟩ := Open_created c hW disk h0 hpos
      rw [hs'] at h
      cases h
      exact hm
  · rcases Nat.lt_or_ge (disk.length % c.SZ) (core c) with hlt | hge
    · rw [Open_short c disk h0 hlt] at h; cases h
    · rcases Nat.eq_zero_or_pos (Round c.bits (disk.length % c.SZ) Block_) with hz | hpos
      · rw [Open_existing_wrap c hW disk h0 hge hz] at h; cases h
      · obtain ⟨hm, he⟩ := Open_existing c hW disk h0 hge hpos
        rw [he] at h
        split at h
        · cases h
        · split at h
          · cases h
          · cases h
            exact hm

/-! ## Claim C1: the offset `New` returns -/

theorem SZ_ge (c : Config) (hW : c.W = 4 ∨ c.W = 8) : 4294967296 ≤ c.SZ := by
  rcases c.SZ_cases hW with h | h <;> omega

/-- What a returning `New` did to a mapped heap. -/
theorem New_some_mapped (c : Config) (hW : c.W = 4 ∨ c.W = 8) (s : File) (t e : Nat)
    (hs : Mapped c s) (o : Nat) (s2 : File) (h : New c s t e = some (o, s2)) :
    o = le32 s.disk.data 8 ∧ Mapped c s2 ∧
      s2.disk.length = max s.disk.length (Round c.bits ((o + rounded c t e) % c.SZ) Block_) ∧
      (o + rounded c t e) % c.SZ ≤ s2.disk.length ∧
      le32 s2.disk.data 8 = (o + rounded c t e) % c.SZ % 2 ^ 32 ∧
      (∀ i, i < s.disk.length → (i < 8 ∨ 12 ≤ i) → s2.disk.data i = s.disk.data i) := by
  obtain ⟨s2', h', hm, hl, hr, h8, hf⟩ :=
    New_mapped c hW s t e hs (New_some_fits c hW s t e hs _ h)
  rw [h] at h'
  simp only [Option.some.injEq, Prod.mk.injEq] at h'
  obtain ⟨ho, hs2⟩ := h'
  subst hs2
  subst ho
  exact ⟨rfl, hm, hl, hr, h8, hf⟩

/-- The header fields other than `size_` survive a returning `New`. -/
theorem frame_fields (d d2 : Nat → Nat) (n : Nat) (hn : 131072 ≤ n)
    (hf : ∀ i, i < n → (i < 8 ∨ 12 ≤ i) → d2 i = d i) :
    le32 d2 0 = le32 d 0 ∧ le32 d2 4 = le32 d 4 ∧ le32 d2 12 = le32 d 12 :=
  ⟨le32_congr _ _ _ (fun i _ _ => hf i (by omega) (by omega)),
   le32_congr _ _ _ (fun i _ _ => hf i (by omega) (by omega)),
   le32_congr _ _ _ (fun i _ _ => hf i (by omega) (by omega))⟩

theorem heap64_mapped : Mapped cfg64 heap64 :=
  Open_ok_mapped cfg64 (Or.inr rfl) emptyDisk heap64 rfl

/-- Claim C1, as amended. On every open (mapped) heap, for every `sizeof(T)` and `extra`
with `size_ + Round(sizeof(T) + extra, W) < 2 ^ 32`, and such that either the request
already fits the capacity or rounding it to the granule size does not wrap `size_t`:
`New` returns the old `size_`, afterwards `size_` is the old value plus the rounded
size, and `magic_`, `version_`, `reserved_` are unchanged. -/
theorem New_returns_old_size (c : Config) (hW : c.W = 4 ∨ c.W = 8) (s : File)
    (hs : Mapped c s) (t e cur : Nat) (hcur : Size_ s = some cur)
    (h32 : cur + rounded c t e < 2 ^ 32)
    (hfit : cur + rounded c t e ≤ Capacity c s ∨ cur + rounded c t e + 131071 < c.SZ) :
    ∃ s2, New c s t e = some (cur, s2) ∧ Size_ s2 = some (cur + rounded c t e) ∧
      magic_ s2 = magic_ s ∧ version_ s2 = version_ s ∧ reserved_ s2 = reserved_ s := by
  rw [hs.size] at hcur
  simp only [Option.some.injEq] at hcur
  subst hcur
  have hSZ := SZ_ge c hW
  have hmod : (le32 s.disk.data 8 + rounded c t e) % c.SZ = le32 s.disk.data 8 + rounded c t e :=
    Nat.mod_eq_of_lt (by norm_num at h32; omega)
  obtain ⟨s2, h, hm, _, _, h8, hf⟩ := New_mapped c hW s t e hs (by rw [hmod]; exact hfit)
  obtain ⟨f0, f4, f12⟩ := frame_fields _ _ _ hs.length_ge hf
  refine ⟨s2, h, ?_, ?_, ?_, ?_⟩
  · rw [hm.size, h8, hmod, Nat.mod_eq_of_lt h32]
  · rw [hm.magic, hs.magic, f0]
  · rw [hm.version, hs.version, f4]
  · rw [hm.reserved, hs.reserved, f12]

/-- Witness of `New_returns_old_size`: the first `New<T>()` with `sizeof(T) = 12`
on a heap just created on a 64-bit platform. -/
theorem New_returns_old_size_witness :
    ∃ s2, New cfg64 heap64 12 0 = some (20, s2) ∧ Size_ s2 = some (20 + rounded cfg64 12 0) ∧
      magic_ s2 = magic_ heap64 ∧ version_ s2 = version_ heap64 ∧
      reserved_ s2 = reserved_ heap64 :=
  New_returns_old_size cfg64 (Or.inr rfl) heap64 heap64_mapped 12 0 20 rfl (by decide)
    (Or.inl (by decide))

/-- Counterexample to claim C1 as stated. On a 32-bit platform, a one-granule file with
a valid header whose `size_` is `2 ^ 32 - 16` opens; `New<T>()` with `sizeof(T) = 8`
keeps `size_ + 8` below `2 ^ 32`, yet rounding the capacity `2 ^ 32 - 8` to the granule
size wraps to 0, the file is truncated to nothing and `New` does not return. -/
theorem New_wraps_on_32_bit :
    ∃ s, Open cfg32 diskHighWater = .ok s ∧ Size_ s = some 4294967280 ∧
      4294967280 + rounded cfg32 8 0 < 2 ^ 32 ∧ New cfg32 s 8 0 = none :=
  ⟨_, rfl, rfl, by decide, rfl⟩

/-! ## Claim C2: what `Reserve` does to the granule list -/

/-- What `Open` returns on a file of length zero. -/
theorem Open_empty (c : Config) (hW : c.W = 4 ∨ c.W = 8) (disk : Disk)
    (hd : disk.length = 0) (s : File) (h : Open c disk = .ok s) :
    Mapped c s ∧ 0 < Round c.bits (core c) Block_ ∧
      s.disk.length = Round c.bits (core c) Block_ ∧
      s.regions = [{ off := 0, len := Round c.bits (core c) Block_ }] ∧
      s.disk.data =
        put32 (put32 (ftruncate disk (Round c.bits (core c) Block_)).data 0 Magic) 8
          (core c % 2 ^ 32) := by
  have h0 : disk.length % c.SZ = 0 := by rw [hd]; rfl
  rcases Nat.eq_zero_or_pos (Round c.bits (core c) Block_) with hz | hpos
  · rw [Open_created_wrap c hW disk h0 hz] at h; cases h
  · obtain ⟨s', hs', hm, h1, h2, h3⟩ := Open_created c hW disk h0 hpos
    rw [hs'] at h
    cases h
    exact ⟨hm, hpos, h1, h2, h3⟩

/-- The header of a heap made of a file of length zero. -/
theorem Open_empty_header (c : Config) (hW : c.W = 4 ∨ c.W = 8) (disk : Disk)
    (hd : disk.length = 0) (s : File) (h : Open c disk = .ok s) :
    le32 s.disk.data 0 = Magic ∧ le32 s.disk.data 4 = 0 ∧
      le32 s.disk.data 8 = core c % 2 ^ 32 ∧ le32 s.disk.data 12 = 0 := by
  obtain ⟨_, _, _, _, hdata⟩ := Open_empty c hW disk hd s h
  rw [hdata]
  refine ⟨?_, ?_, ?_, ?_⟩
  · rw [le32_put32_other _ _ _ _ (by omega), le32_put32_same _ _ _ (by decide)]
  · rw [le32_put32_other _ _ _ _ (by omega), le32_put32_other _ _ _ _ (by omega)]
    simp [le32, ftruncate, hd]
  · exact le32_put32_same _ _ _ (Nat.mod_lt _ (by norm_num))
  · rw [le32_put32_other _ _ _ _ (by omega), le32_put32_other _ _ _ _ (by omega)]
    simp [le32, ftruncate, hd]

/-- Along successive `New` calls on a mapped heap the residue of `size_` modulo the
word size never changes, and it is the residue of every offset returned. -/
theorem allocate_residue (c : Config) (hW : c.W = 4 ∨ c.W = 8) (reqs : List (Nat × Nat)) :
    ∀ (s : File) (os : List Nat) (s2 : File), Mapped c s →
      allocate c s reqs = some (os, s2) →
      ∀ o ∈ os, o % c.W = le32 s.disk.data 8 % c.W := by
  induction reqs with
  | nil =>
    intro s os s2 _ h o ho
    simp only [allocate, Option.some.injEq, Prod.mk.injEq] at h
    rw [← h.1] at ho
    cases ho
  | cons q rest ih =>
    intro s os s2 hs h o ho
    obtain ⟨t, e⟩ := q
    simp only [allocate] at h
    cases hn : New c s t e with
    | none => simp [hn] at h
    | some r =>
      obtain ⟨o1, s1⟩ := r
      simp only [hn] at h
      cases ha : allocate c s1 rest with
      | none => simp [ha] at h
      | some r2 =>
        obtain ⟨os1, s3⟩ := r2
        simp only [ha, Option.some.injEq, Prod.mk.injEq] at h
        obtain ⟨hos, _⟩ := h
        obtain ⟨ho1, hm1, _, _, h8, _⟩ := New_some_mapped c hW s t e hs o1 s1 hn
        rw [← hos] at ho
        rcases List.mem_cons.mp ho with h1 | h1
        · rw [h1, ho1]
        · rw [ih s1 os1 s3 hm1 ha o h1, h8, ← ho1]
          have hr := (rounded_lt c hW t e).2
          generalize rounded c t e = r at hr
          rcases hW with hw | hw
          · simp only [Config.SZ, hw] at hr ⊢; norm_num; omega
          · simp only [Config.SZ, hw] at hr ⊢; norm_num; omega

theorem core_mod_word (c : Config) (hW : c.W = 4 ∨ c.W = 8) :
    core c % 2 ^ 32 % c.W = core c % c.W := by
  rcases hW with hw | hw <;> rw [hw] <;> norm_num

/-- Claim C3, as amended. On a heap created by `Open` on an empty file, for every root
record size, `W` in `{4, 8}` and every sequence of `New` calls that return, every
returned offset is congruent to `core = 16 + sizeof(RootRecord)` modulo `W` (so the
offsets are word-aligned exactly when `core` is); in the scenario (4-byte root record,
three `New<Node>()`) the offsets are `20`, `20 + r` and `20 + 2 r`, `r` being the
rounded size of `Node`. -/
theorem New_offsets_follow_core (c : Config) (hW : c.W = 4 ∨ c.W = 8) (disk : Disk)
    (hd : disk.length = 0) (s0 : File) (h0 : Open c disk = .ok s0) :
    (∀ reqs os s, allocate c s0 reqs = some (os, s) → ∀ o ∈ os, o % c.W = core c % c.W) ∧
    (c.base = 4 → ∀ t, 20 + 3 * rounded c t 0 + 131071 < 2 ^ 32 →
      ∃ s, allocate c s0 [(t, 0), (t, 0), (t, 0)]
        = some ([20, 20 + rounded c t 0, 20 + 2 * rounded c t 0], s)) := by
  obtain ⟨hm0, _, _, _, _⟩ := Open_empty c hW disk hd s0 h0
  obtain ⟨_, _, h8, _⟩ := Open_empty_header c hW disk hd s0 h0
  refine ⟨fun reqs os s h o ho => ?_, fun hb t ht => ?_⟩
  · rw [allocate_residue c hW reqs s0 os s hm0 h o ho, h8, core_mod_word c hW]
  · have hSZ := SZ_ge c hW
    have hcore : core c = 20 := by
      unfold core
      rw [hb]
      exact Nat.mod_eq_of_lt (by unfold sizeofHeader; omega)
    rw [hcore] at h8
    norm_num at h8 ht
    generalize hr : rounded c t 0 = r at ht ⊢
    have mod1 : ∀ x, x ≤ 20 + 3 * r → x % c.SZ = x := fun x hx => Nat.mod_eq_of_lt (by omega)
    obtain ⟨s1, e1, m1, _, _, a1, _⟩ := New_mapped c hW s0 t 0 hm0
      (Or.inr (by rw [hr, mod1 _ (by omega)]; omega))
    rw [hr, h8, mod1 _ (by omega), Nat.mod_eq_of_lt (by norm_num; omega)] at a1
    rw [h8] at e1
    obtain ⟨s2, e2, m2, _, _, a2, _⟩ := New_mapped c hW s1 t 0 m1
      (Or.inr (by rw [hr, a1, mod1 _ (by omega)]; omega))
    rw [hr, a1, mod1 _ (by omega), Nat.mod_eq_of_lt (by norm_num; omega)] at a2
    rw [a1] at e2
    obtain ⟨s3, e3, m3, _, _, a3, _⟩ := New_mapped c hW s2 t 0 m2
      (Or.inr (by rw [hr, a2, mod1 _ (by omega)]; omega))
    rw [a2] at e3
    refine ⟨s3, ?_⟩
    have e : 20 + r + r = 20 + 2 * r := by omega
    simp only [allocate, e1, e2, e3, e]

/-- Witness of `New_offsets_follow_core`: the scenario on a 64-bit platform with
`sizeof(Node) = 12`: the offsets are 20, 36 and 52, each congruent to `core = 20`
modulo 8. -/
theorem New_offsets_follow_core_witness :
    ∃ s, allocate cfg64 heap64 [(12, 0), (12, 0), (12, 0)] = some ([20, 36, 52], s) ∧
      ∀ o ∈ [20, 36, 52], o % cfg64.W = core cfg64 % cfg64.W := by
  obtain ⟨s, hs⟩ :=
    (New_offsets_follow_core cfg64 (Or.inr rfl) emptyDisk rfl heap64 rfl).2 rfl 12 (by decide)
  exact ⟨s, hs,
    (New_offsets_follow_core cfg64 (Or.inr rfl) emptyDisk rfl heap64 rfl).1 _ _ _ hs⟩

/-- Counterexample to claim C3 as stated. On a 64-bit platform with the 4-byte root
record the first `New` on a fresh heap returns offset 20, which is not a multiple of 8.
-/
theorem New_first_offset_unaligned :
    ∃ s r, Open cfg64 emptyDisk = .ok s ∧ New cfg64 s 12 0 = some r ∧ r.1 = 20 ∧
      r.1 % cfg64.W ≠ 0 :=
  ⟨_, _, rfl, rfl, rfl, by decide⟩

/-! ## Claims C4 and C5: the checks of `Open` -/

theorem core_eq (c : Config) (hbase : sizeofHeader + c.base < c.SZ) : core c = 16 + c.base :=
  Nat.mod_eq_of_lt hbase

theorem le32_ftruncate (d : Disk) (n k : Nat) (hk : k + 3 < d.length) :
    le32 (ftruncate d n).data k = le32 d.data k :=
  le32_congr _ _ _ (fun i _ hi => by
    show (if i < d.length then d.data i else 0) = d.data i
    rw [if_pos (by omega)])

/-- The call `Open` on a non-empty file whose length, rounded to the granule size, does not
wrap `size_t`: the outcome, and the file as the call leaves it. -/
theorem Open_nonempty (c : Config) (hW : c.W = 4 ∨ c.W = 8)
    (hbase : sizeofHeader + c.base < c.SZ) (disk : Disk)
    (hfit : disk.length + 131071 < c.SZ) (hcore : core c ≤ disk.length) :
    Mapped c (Truncate_ c { disk := disk, regions := [], blocks_ := [] } disk.length) ∧
    Round c.bits disk.length Block_ = (disk.length + 131071) / 131072 * 131072 ∧
    Open c disk =
      if le32 disk.data 0 ≠ Magic then
        .error ⟨.BadMagic, ftruncate disk (Round c.bits disk.length Block_)⟩
      else if le32 disk.data 4 ≠ 0 then
        .error ⟨.UnsupportedVersion, ftruncate disk (Round c.bits disk.length Block_)⟩
      else .ok (Truncate_ c { disk := disk, regions := [], blocks_ := [] } disk.length) := by
  have hc := core_eq c hbase
  have hmod : disk.length % c.SZ = disk.length := Nat.mod_eq_of_lt (by omega)
  have hR := Round_block c hW disk.length
  rw [Nat.mod_eq_of_lt hfit] at hR
  obtain ⟨hm, he⟩ := Open_existing c hW disk (by rw [hmod]; omega) (by rw [hmod]; exact hcore)
    (by rw [hmod, hR]; omega)
  rw [hmod] at hm he
  rw [le32_ftruncate _ _ _ (by omega), le32_ftruncate _ _ _ (by omega)] at he
  exact ⟨hm, hR, he⟩

/-- Claim C4, as amended. For every non-empty backing file whose length plus 131071 is a
`size_t` (every file on a 64-bit platform), with `core = sizeof(Header) +
sizeof(RootRecord)`: `Open` fails with `CorruptHeader` when the length is below `core`;
else with `BadMagic` when the magic field is not `Magic`; else with `UnsupportedVersion`
when the version field is not 0; and it succeeds exactly when length >= core, magic ==
Magic and version == 0. -/
theorem Open_checks_in_order (c : Config) (hW : c.W = 4 ∨ c.W = 8)
    (hbase : sizeofHeader + c.base < c.SZ) (disk : Disk) (hne : 0 < disk.length)
    (hfit : disk.length + 131071 < c.SZ) :
    (disk.length < core c → Open c disk = .error ⟨.CorruptHeader, disk⟩) ∧
    (core c ≤ disk.length → le32 disk.data 0 ≠ Magic →
      ∃ d, Open c disk = .error ⟨.BadMagic, d⟩) ∧
    (core c ≤ disk.length → le32 disk.data 0 = Magic → le32 disk.data 4 ≠ 0 →
      ∃ d, Open c disk = .error ⟨.UnsupportedVersion, d⟩) ∧
    ((∃ s, Open c disk = .ok s) ↔
      core c ≤ disk.length ∧ le32 disk.data 0 = Magic ∧ le32 disk.data 4 = 0) := by
  have hmod : disk.length % c.SZ = disk.length := Nat.mod_eq_of_lt (by omega)
  have hshort : disk.length < core c → Open c disk = .error ⟨.CorruptHeader, disk⟩ :=
    fun h => Open_short c disk (by rw [hmod]; omega) (by rw [hmod]; exact h)
  refine ⟨hshort, fun hcore hm => ?_, fun hcore hm hv => ?_,
    ⟨fun ⟨s, hs⟩ => ?_, fun ⟨hcore, hm, hv⟩ => ?_⟩⟩
  · obtain ⟨_, _, he⟩ := Open_nonempty c hW hbase disk hfit hcore
    exact ⟨_, by rw [he, if_pos hm]⟩
  · obtain ⟨_, _, he⟩ := Open_nonempty c hW hbase disk hfit hcore
    exact ⟨_, by rw [he, if_neg (not_not.mpr hm), if_pos hv]⟩
  · rcases Nat.lt_or_ge disk.length (core c) with hlt | hcore
    · rw [hshort hlt] at hs; cases hs
    · obtain ⟨_, _, he⟩ := Open_nonempty c hW hbase disk hfit hcore
      rw [he] at hs
      by_cases hm : le32 disk.data 0 = Magic
      · by_cases hv : le32 disk.data 4 = 0
        · exact ⟨hcore, hm, hv⟩
        · rw [if_neg (not_not.mpr hm), if_pos hv] at hs; cases hs
      · rw [if_pos hm] at hs; cases hs
  · obtain ⟨_, _, he⟩ := Open_nonempty c hW hbase disk hfit hcore
    exact ⟨_, by rw [he, if_neg (not_not.mpr hm), if_neg (not_not.mpr hv)]⟩

/-- Witness of `Open_checks_in_order`: a 20-byte file of zeros on a 64-bit
platform has length `core` and a bad magic. -/
theorem Open_checks_in_order_witness :
    ∃ d, Open cfg64 diskZeros = .error ⟨.BadMagic, d⟩ :=
  (Open_checks_in_order cfg64 (Or.inr rfl) (by decide) diskZeros (by decide) (by decide)).2.1
    (by decide) (by decide)

/-- Counterexample to claim C4 as stated. On a 32-bit platform a file of `2 ^ 32 - 1`
bytes with length >= core, the right magic and version 0 does not open: rounding its
length to the granule size wraps to 0, the file is truncated to nothing and the header
is read through an empty granule list. -/
theorem Open_wraps_on_32_bit :
    ∃ d, Open cfg32 diskHuge = .error ⟨.Undefined, d⟩ ∧ d.length = 0 ∧
      0 < diskHuge.length ∧ core cfg32 ≤ diskHuge.length ∧
      le32 diskHuge.data 0 = Magic ∧ le32 diskHuge.data 4 = 0 :=
  ⟨_, rfl, rfl, by decide, by decide, by decide, by decide⟩

/-- Claim C5, as amended. For every existing file of length >= core (its length plus
131071 a `size_t`) whose magic field is not `Magic`, `Open` fails with `BadMagic` and
changes no byte the file had; but it has already extended the file to `Round(length,
131072)` bytes, the new bytes reading zero, so the length is unchanged only when it was
a multiple of 131072. -/
theorem Open_bad_magic_extends (c : Config) (hW : c.W = 4 ∨ c.W = 8)
    (hbase : sizeofHeader + c.base < c.SZ) (disk : Disk) (hcore : core c ≤ disk.length)
    (hfit : disk.length + 131071 < c.SZ) (hmagic : le32 disk.data 0 ≠ Magic) :
    ∃ d, Open c disk = .error ⟨.BadMagic, d⟩ ∧
      d.length = Round c.bits disk.length Block_ ∧
      d.length = (disk.length + 131071) / 131072 * 131072 ∧
      (∀ i, i < disk.length → d.data i = disk.data i) ∧
      (∀ i, disk.length ≤ i → d.data i = 0) ∧
      (d.length = disk.length ↔ disk.length % 131072 = 0) := by
  obtain ⟨_, hR, he⟩ := Open_nonempty c hW hbase disk hfit hcore
  refine ⟨_, by rw [he, if_pos hmagic], rfl, hR, fun i hi => ?_, fun i hi => ?_, ?_⟩
  · show (if i < disk.length then disk.data i else 0) = disk.data i
    rw [if_pos hi]
  · show (if i < disk.length then disk.data i else 0) = 0
    rw [if_neg (by omega)]
  · show Round c.bits disk.length Block_ = disk.length ↔ _
    rw [hR]
    omega

/-- Witness of `Open_bad_magic_extends`: a granule of zeros on a 64-bit platform. -/
theorem Open_bad_magic_extends_witness :
    ∃ d, Open cfg64 ⟨131072, fun _ => 0⟩ = .error ⟨.BadMagic, d⟩ ∧
      d.length = Round cfg64.bits 131072 Block_ ∧
      d.length = (131072 + 131071) / 131072 * 131072 ∧
      (∀ i, i < 131072 → d.data i = 0) ∧
      (∀ i, 131072 ≤ i → d.data i = 0) ∧
      (d.length = 131072 ↔ 131072 % 131072 = 0) :=
  Open_bad_magic_extends cfg64 (Or.inr rfl) (by decide) ⟨131072, fun _ => 0⟩ (by decide)
    (by decide) (by decide)

/-- Counterexample to claim C5 as stated. On a 64-bit platform a 20-byte file of zeros
(length = core, bad magic) makes `Open` fail with `BadMagic`, and the file is then
131072 bytes long. -/
theorem Open_bad_magic_grows_file :
    ∃ d, Open cfg64 diskZeros = .error ⟨.BadMagic, d⟩ ∧ core cfg64 ≤ diskZeros.length ∧
      diskZeros.length = 20 ∧ d.length = 131072 :=
  ⟨_, rfl, by decide, rfl, rfl⟩

/-! ## Claims C6 and C7: the header after `Open` -/

/-- Claim C6, as amended. For every backing file (its length a `size_t`) on which `Open`
succeeds, the header seen through the heap has `magic_ == Magic` and `version_ == 0`. On
a newly created file `size_` is `core` narrowed to 32 bits (so `size_ >= core` whenever
`core < 2 ^ 32`); on a pre-existing file `size_` is whatever the file stores at byte 8:
`Open` does not look at it. -/
theorem Open_header_invariant (c : Config) (hW : c.W = 4 ∨ c.W = 8)
    (hbase : sizeofHeader + c.base < c.SZ) (disk : Disk) (hlen : disk.length < c.SZ)
    (s : File) (h : Open c disk = .ok s) :
    magic_ s = some Magic ∧ version_ s = some 0 ∧
      (disk.length = 0 → Size_ s = some (core c % 2 ^ 32)) ∧
      (disk.length ≠ 0 → Size_ s = some (le32 disk.data 8)) := by
  have hm := Open_ok_mapped c hW disk s h
  have hmod : disk.length % c.SZ = disk.length := Nat.mod_eq_of_lt hlen
  have hc := core_eq c hbase
  rw [hm.magic, hm.version, hm.size]
  rcases Nat.eq_zero_or_pos disk.length with hd | hpos
  · obtain ⟨h0, h4, h8, _⟩ := Open_empty_header c hW disk hd s h
    exact ⟨by rw [h0], by rw [h4], fun _ => by rw [h8], fun hne => absurd hd hne⟩
  · have h0 : disk.length % c.SZ ≠ 0 := by rw [hmod]; omega
    rcases Nat.lt_or_ge disk.length (core c) with hlt | hcore
    · rw [Open_short c disk h0 (by rw [hmod]; exact hlt)] at h; cases h
    · rcases Nat.eq_zero_or_pos (Round c.bits (disk.length % c.SZ) Block_) with hz | hR
      · rw [Open_existing_wrap c hW disk h0 (by rw [hmod]; exact hcore) hz] at h; cases h
      · obtain ⟨_, he⟩ := Open_existing c hW disk h0 (by rw [hmod]; exact hcore) hR
        rw [he, le32_ftruncate _ _ _ (by omega), le32_ftruncate _ _ _ (by omega)] at h
        by_cases hmg : le32 disk.data 0 = Magic
        · by_cases hv : le32 disk.data 4 = 0
          · rw [if_neg (not_not.mpr hmg), if_neg (not_not.mpr hv)] at h
            cases h
            rw [Truncate_disk, le32_ftruncate disk _ _ (by omega),
              le32_ftruncate disk _ _ (by omega), le32_ftruncate disk _ _ (by omega), hmg, hv]
            exact ⟨rfl, rfl, fun hd => absurd hd (by omega), fun _ => rfl⟩
          · rw [if_neg (not_not.mpr hmg), if_pos hv] at h; cases h
        · rw [if_pos hmg] at h; cases h

/-- Witness of `Open_header_invariant`: the heap created on a 64-bit platform. -/
theorem Open_header_invariant_witness :
    magic_ heap64 = some Magic ∧ version_ heap64 = some 0 ∧
      (emptyDisk.length = 0 → Size_ heap64 = some (core cfg64 % 2 ^ 32)) ∧
      (emptyDisk.length ≠ 0 → Size_ heap64 = some (le32 emptyDisk.data 8)) :=
  Open_header_invariant cfg64 (Or.inr rfl) (by decide) emptyDisk (by decide) heap64 rfl

/-- Counterexample to claim C6 as stated. On a 64-bit platform a one-granule file with
the right magic, version 0 and a `size_` field of 0 opens, and the header seen through
the heap has `size_ = 0 < 20 = core`. -/
theorem Open_accepts_small_size :
    ∃ s, Open cfg64 diskSizeZero = .ok s ∧ Size_ s = some 0 ∧ core cfg64 = 20 :=
  ⟨_, rfl, rfl, rfl⟩

/-- Claim C7, as amended. For every root record size (at most half the range of
`size_t`), `Open` on a file of length zero, with `core = 16 + sizeof(RootRecord)`:
extends the file to `Round(core, 131072)` bytes, the least multiple of 131072 that is >=
core; maps that many bytes as `Round(core, 131072) / 131072` granules, so `Capacity()`
is the same number; and leaves `magic_ == Magic`, `version_ == 0`, `reserved_ == 0` and
`size_ == core` narrowed to 32 bits (`core` itself when `core < 2 ^ 32`). -/
theorem Open_creates (c : Config) (hW : c.W = 4 ∨ c.W = 8) (hbase : c.base < c.SZ / 2)
    (disk : Disk) (hd : disk.length = 0) :
    ∃ s, Open c disk = .ok s ∧ core c = 16 + c.base ∧
      s.disk.length = Round c.bits (core c) Block_ ∧
      core c ≤ s.disk.length ∧ s.disk.length < core c + 131072 ∧
      s.disk.length % 131072 = 0 ∧
      s.blocks_.length = Round c.bits (core c) Block_ / 131072 ∧
      Capacity c s = Round c.bits (core c) Block_ ∧
      magic_ s = some Magic ∧ version_ s = some 0 ∧
      Size_ s = some (core c % 2 ^ 32) ∧ (core c < 2 ^ 32 → Size_ s = some (core c)) ∧
      reserved_ s = some 0 := by
  have hSZ := SZ_ge c hW
  have hc : core c = 16 + c.base := core_eq c (by unfold sizeofHeader; omega)
  have hR := Round_block c hW (core c)
  rw [Nat.mod_eq_of_lt (by omega)] at hR
  have h0 : disk.length % c.SZ = 0 := by rw [hd]; rfl
  obtain ⟨s, hs, hm, hlen, _, _⟩ := Open_created c hW disk h0 (by rw [hR]; omega)
  obtain ⟨f0, f4, f8, f12⟩ := Open_empty_header c hW disk hd s hs
  have hcap := hm.capacity
  have hle := hm.length_eq
  rw [Block_val] at hle
  refine ⟨s, hs, hc, hlen, by rw [hlen, hR]; omega, by rw [hlen, hR]; omega,
    by rw [hlen, hR]; omega, by rw [← hlen]; omega, by rw [hcap, hlen], ?_, ?_, ?_, ?_, ?_⟩
  · rw [hm.magic, f0]
  · rw [hm.version, f4]
  · rw [hm.size, f8]
  · intro h32
    rw [hm.size, f8, Nat.mod_eq_of_lt h32]
  · rw [hm.reserved, f12]

/-- Witness of `Open_creates`: the 4-byte root record on a 64-bit platform. -/
theorem Open_creates_witness :
    ∃ s, Open cfg64 emptyDisk = .ok s ∧ core cfg64 = 16 + cfg64.base ∧
      s.disk.length = Round cfg64.bits (core cfg64) Block_ ∧
      core cfg64 ≤ s.disk.length ∧ s.disk.length < core cfg64 + 131072 ∧
      s.disk.length % 131072 = 0 ∧
      s.blocks_.length = Round cfg64.bits (core cfg64) Block_ / 131072 ∧
      Capacity cfg64 s = Round cfg64.bits (core cfg64) Block_ ∧
      magic_ s = some Magic ∧ version_ s = some 0 ∧
      Size_ s = some (core cfg64 % 2 ^ 32) ∧
      (core cfg64 < 2 ^ 32 → Size_ s = some (core cfg64)) ∧
      reserved_ s = some 0 :=
  Open_creates cfg64 (Or.inr rfl) (by decide) emptyDisk rfl

/-- Counterexample to claim C7 as stated. On a 64-bit platform with a root record of `2
^ 32 - 16` bytes, `core = 2 ^ 32`, and `Open` on an empty file leaves `size_ = 0`, not
`core`: the store `Size_() = core` narrows to `uint32_t`. -/
theorem Open_narrows_core :
    ∃ s, Open cfgWide emptyDisk = .ok s ∧ core cfgWide = 4294967296 ∧ Size_ s = some 0 := by
  obtain ⟨s, hs, hm, _⟩ := Open_created cfgWide (Or.inr rfl) emptyDisk rfl (by decide)
  obtain ⟨_, _, f8, _⟩ := Open_empty_header cfgWide (Or.inr rfl) emptyDisk rfl s hs
  exact ⟨s, hs, rfl, by rw [hm.size, f8]; rfl⟩

/-! ## Stores leave the mapping alone -/

theorem store32_frame (s s2 : File) (p : Ptr) (v : Nat) (h : store32 s p v = some s2) :
    s2.disk.length = s.disk.length ∧ s2.blocks_ = s.blocks_ ∧ s2.regions = s.regions := by
  unfold store32 at h
  split at h
  · simp only [Option.some.injEq] at h
    subst h
    exact ⟨rfl, rfl, rfl⟩
  · cases h

theorem store8_frame (s s2 : File) (p : Ptr) (v : Nat) (h : store8 s p v = some s2) :
    s2.disk.length = s.disk.length ∧ s2.blocks_ = s.blocks_ ∧ s2.regions = s.regions := by
  unfold store8 at h
  split at h
  · simp only [Option.some.injEq] at h
    subst h
    exact ⟨rfl, rfl, rfl⟩
  · cases h

/-! ## Claim C10: capacity and file length -/

/-- Whatever the state, a returning `Reserve` leaves `Capacity()` equal to the file
length and a multiple of the granule size, if they were so before. -/
theorem Reserve_length (c : Config) (hW : c.W = 4 ∨ c.W = 8) (s s1 : File) (cap : Nat)
    (hJ : Capacity c s = s.disk.length ∧ s.disk.length % 131072 = 0)
    (h : Reserve c s cap = some s1) :
    Capacity c s1 = s1.disk.length ∧ s1.disk.length % 131072 = 0 := by
  unfold Reserve at h
  split at h
  · cases h; exact hJ
  · split at h
    · cases h
    · simp only [Option.some.injEq] at h
      subst h
      obtain ⟨h1, h2⟩ := Truncate_capacity c hW { s with blocks_ := s.blocks_.dropLast } cap
      rw [h1, h2]
      exact ⟨rfl, (Round_block_dvd c hW cap).1⟩

/-- A returning `New` is a returning `Reserve` followed by a store. -/
theorem New_length (c : Config) (s : File) (t e : Nat) (r : Nat × File)
    (h : New c s t e = some r) :
    ∃ cap s1, Reserve c s cap = some s1 ∧ r.2.disk.length = s1.disk.length ∧
      r.2.blocks_ = s1.blocks_ := by
  simp only [New] at h
  split at h
  · cases h
  · rename_i cur _
    split at h
    · cases h
    · rename_i s1 hs1
      split at h
      · cases h
      · rename_i offset _
        split at h
        · cases h
        · rename_i s2 hs2
          simp only [Option.some.injEq] at h
          subst h
          refine ⟨_, s1, hs1, ?_⟩
          unfold setSize_ at hs2
          split at hs2
          · obtain ⟨f1, f2, _⟩ := store32_frame _ _ _ _ hs2
            exact ⟨f1, f2⟩
          · cases hs2

theorem step_length (c : Config) (hW : c.W = 4 ∨ c.W = 8) (s s1 : File) (op : Op)
    (hJ : Capacity c s = s.disk.length ∧ s.disk.length % 131072 = 0)
    (h : step c s op = some s1) :
    Capacity c s1 = s1.disk.length ∧ s1.disk.length % 131072 = 0 := by
  cases op with
  | New t e =>
    simp only [step] at h
    split at h
    · rename_i r hr
      simp only [Option.some.injEq] at h
      subst h
      obtain ⟨cap, s', hres, hl, hb⟩ := New_length c s t e r hr
      have := Reserve_length c hW s s' cap hJ hres
      unfold Capacity at this ⊢
      rw [hl, hb]
      exact this
    · cases h
  | Reserve cap => exact Reserve_length c hW s s1 cap hJ h
  | Put o v =>
    simp only [step] at h
    split at h
    · obtain ⟨f1, f2, _⟩ := store8_frame _ _ _ _ h
      unfold Capacity at hJ ⊢
      rw [f1, f2]
      exact hJ
    · cases h

theorem run_length (c : Config) (hW : c.W = 4 ∨ c.W = 8) (ops : List Op) :
    ∀ (s s1 : File), (Capacity c s = s.disk.length ∧ s.disk.length % 131072 = 0) →
      run c s ops = some s1 →
      Capacity c s1 = s1.disk.length ∧ s1.disk.length % 131072 = 0 := by
  induction ops with
  | nil =>
    intro s s1 hJ h
    simp only [run, Option.some.injEq] at h
    subst h
    exact hJ
  | cons op rest ih =>
    intro s s1 hJ h
    simp only [run] at h
    split at h
    · rename_i s' hs'
      exact ih s' s1 (step_length c hW s s' op hJ hs') h
    · cases h

theorem Mapped.length_mod {c : Config} {s : File} (h : Mapped c s) :
    s.disk.length % 131072 = 0 := by
  have := h.length_eq
  rw [Block_val] at this
  omega

/-- Claim C10. After `Open` (on an empty or an existing file) and any sequence of
returning `Reserve`, `New` and byte-store calls, `Capacity()` is an exact multiple of
131072 and equals the length of the backing file, which is therefore always a multiple
of the granule size. -/
theorem Capacity_is_file_length (c : Config) (hW : c.W = 4 ∨ c.W = 8) (disk : Disk)
    (s0 : File) (h0 : Open c disk = .ok s0) (ops : List Op) (s : File)
    (hrun : run c s0 ops = some s) :
    Capacity c s % 131072 = 0 ∧ Capacity c s = s.disk.length := by
  have hm := Open_ok_mapped c hW disk s0 h0
  obtain ⟨h1, h2⟩ := run_length c hW ops s0 s ⟨hm.capacity, hm.length_mod⟩ hrun
  exact ⟨by rw [h1]; exact h2, h1⟩

/-- Witness of `Capacity_is_file_length`: a fresh heap after `Reserve(131073)`,
`New` of 300000 bytes and a store. -/
theorem Capacity_is_file_length_witness :
    ∃ s, run cfg64 heap64 [.Reserve 131073, .New 300000 0, .Put 16 7] = some s ∧
      Capacity cfg64 s % 131072 = 0 ∧ Capacity cfg64 s = s.disk.length ∧
      s.disk.length = 393216 :=
  ⟨_, rfl,
    (Capacity_is_file_length cfg64 (Or.inr rfl) emptyDisk heap64 rfl
      [.Reserve 131073, .New 300000 0, .Put 16 7] _ rfl).1,
    (Capacity_is_file_length cfg64 (Or.inr rfl) emptyDisk heap64 rfl
      [.Reserve 131073, .New 300000 0, .Put 16 7] _ rfl).2, rfl⟩

/-! ## Claim C9: the capacity after `Reserve` -/

theorem shift_mask (o : Nat) :
    o >>> Shift_ = o / 131072 ∧ o &&& Mask_ = o % 131072 := by
  constructor
  · simp [Shift_, Nat.shiftRight_eq_div_pow]
  · rw [Mask_val]
    exact Nat.and_pow_two_sub_one_eq_mod o 17

/-- On a mapped heap the pointer `Get(offset)` denotes file byte `offset`. -/
theorem Mapped.get_resolve {c : Config} {s : File} (h : Mapped c s) {o : Nat} {p : Ptr}
    (hp : Get s o = some p) : s.resolve p = some o := by
  obtain ⟨e1, e2⟩ := shift_mask o
  unfold Get at hp
  split at hp
  · rename_i b hb
    simp only [Option.some.injEq] at hp
    subst hp
    rw [h.windows.resolve hb (Nat.le_of_eq h.length_eq.symm) (o &&& Mask_)
      (by rw [e2, Block_val]; omega), e1, e2, Block_val]
    congr 1
    omega
  · cases hp

/-- On a mapped heap `Get(offset)` is defined for every offset inside the file. -/
theorem Mapped.get_some {c : Config} {s : File} (h : Mapped c s) {o : Nat}
    (ho : o < s.disk.length) : ∃ p, Get s o = some p := by
  obtain ⟨e1, _⟩ := shift_mask o
  have hl := h.length_eq
  rw [Block_val] at hl
  have hi : o >>> Shift_ < s.blocks_.length := by rw [e1]; omega
  unfold Get
  rw [List.getElem?_eq_getElem hi]
  exact ⟨_, rfl⟩

theorem Mapped.peek {c : Config} {s : File} (h : Mapped c s) {o : Nat}
    (ho : o < s.disk.length) : peek s o = some (s.disk.data o % 256) := by
  obtain ⟨p, hp⟩ := h.get_some ho
  simp only [Cytore.peek, hp, load8, h.get_resolve hp]

theorem persistent_of_Open (c : Config) (hW : c.W = 4 ∨ c.W = 8) (disk : Disk)
    (hd : disk.length = 0) (s : File) (h : Open c disk = .ok s) : Persistent c s := by
  obtain ⟨hm, hpos, hlen, _, _⟩ := Open_empty c hW disk hd s h
  obtain ⟨h0, h4, _, _⟩ := Open_empty_header c hW disk hd s h
  refine ⟨hm, h0, h4, ?_⟩
  have hR := Round_block c hW (core c)
  have hc : core c < c.SZ := Nat.mod_lt _ (by rcases c.SZ_cases hW with h | h <;> omega)
  rw [hlen]
  rw [hR] at hpos ⊢
  rcases c.SZ_cases hW with h | h <;> rw [h] at hc hpos ⊢ <;> omega

theorem persistent_step (c : Config) (hW : c.W = 4 ∨ c.W = 8) (s s1 : File) (op : Op)
    (hop : op.allocOrRootWrite c = true) (hs : Persistent c s) (h : step c s op = some s1) :
    Persistent c s1 := by
  have hl := hs.mapped.length_ge
  cases op with
  | New t e =>
    simp only [step] at h
    split at h
    · rename_i r hr
      simp only [Option.some.injEq] at h
      subst h
      obtain ⟨_, hm, hlen, _, _, hf⟩ := New_some_mapped c hW s t e hs.mapped r.1 r.2 hr
      obtain ⟨f0, f4, _⟩ := frame_fields _ _ _ hl hf
      refine ⟨hm, by rw [f0, hs.magic], by rw [f4, hs.version], ?_⟩
      have := hs.core_le
      rw [hlen]
      omega
    · cases h
  | Reserve cap => simp [Op.allocOrRootWrite] at hop
  | Put o v =>
    simp only [Op.allocOrRootWrite, decide_eq_true_eq, sizeofHeader] at hop
    simp only [step] at h
    split at h
    · rename_i p hp
      have hres := hs.mapped.get_resolve hp
      simp only [store8, hres, Option.some.injEq] at h
      subst h
      refine ⟨hs.mapped.with_data _, ?_, ?_, hs.core_le⟩
      · rw [← hs.magic]
        exact le32_congr _ _ _ (fun i _ hi => by
          show (if i = o then v % 256 else s.disk.data i) = s.disk.data i
          rw [if_neg (by omega)])
      · rw [← hs.version]
        exact le32_congr _ _ _ (fun i _ hi => by
          show (if i = o then v % 256 else s.disk.data i) = s.disk.data i
          rw [if_neg (by omega)])
    · cases h

theorem persistent_run (c : Config) (hW : c.W = 4 ∨ c.W = 8) (ops : List Op) :
    ∀ (s s1 : File), (∀ op ∈ ops, op.allocOrRootWrite c = true) → Persistent c s →
      run c s ops = some s1 → Persistent c s1 := by
  induction ops with
  | nil =>
    intro s s1 _ hs h
    simp only [run, Option.some.injEq] at h
    subst h
    exact hs
  | cons op rest ih =>
    intro s s1 hops hs h
    simp only [run] at h
    split at h
    · rename_i s' hs'
      exact ih s' s1 (fun o ho => hops o (List.mem_cons_of_mem _ ho))
        (persistent_step c hW s s' op (hops op (List.mem_cons_self _ _)) hs hs') h
    · cases h

/-- Closing a persistent heap and opening its file again. -/
theorem persistent_reopen (c : Config) (hW : c.W = 4 ∨ c.W = 8) (s : File)
    (hs : Persistent c s) :
    ∃ s2, Open c s.disk = .ok s2 ∧ Mapped c s2 ∧ s2.disk.length = s.disk.length ∧
      ∀ i, i < s.disk.length → s2.disk.data i = s.disk.data i := by
  have hl := hs.mapped.length_ge
  have hmod := hs.mapped.length_mod
  have hfits := hs.mapped.fits
  have hfit : s.disk.length + 131071 < c.SZ := by
    rcases c.SZ_cases hW with h | h <;> rw [h] at hfits ⊢ <;> omega
  have hm : s.disk.length % c.SZ = s.disk.length := Nat.mod_eq_of_lt hfits
  have hR := Round_block c hW s.disk.length
  rw [Nat.mod_eq_of_lt hfit] at hR
  have hR2 : Round c.bits s.disk.length Block_ = s.disk.length := by rw [hR]; omega
  obtain ⟨hm2, he⟩ := Open_existing c hW s.disk (by rw [hm]; omega)
    (by rw [hm]; exact hs.core_le) (by rw [hm, hR2]; omega)
  rw [hm, le32_ftruncate s.disk _ _ (by omega), le32_ftruncate s.disk _ _ (by omega),
    if_neg (not_not.mpr hs.magic), if_neg (not_not.mpr hs.version)] at he
  rw [hm] at hm2
  refine ⟨_, he, hm2, ?_, fun i hi => ?_⟩
  · rw [Truncate_disk]
    exact hR2
  · rw [Truncate_disk]
    show (if i < s.disk.length then s.disk.data i else 0) = s.disk.data i
    rw [if_pos hi]

/-- A sequence of `New` calls and root-record stores returns when the sizes asked
for keep `size_` below `2 ^ 32` and the capacity roundable in `size_t`. -/
theorem persistent_returns (c : Config) (hW : c.W = 4 ∨ c.W = 8)
    (hbase : sizeofHeader + c.base < c.SZ) (ops : List Op) :
    ∀ (s : File), (∀ op ∈ ops, op.allocOrRootWrite c = true) → Persistent c s →
      le32 s.disk.data 8 + demand c ops < 2 ^ 32 →
      le32 s.disk.data 8 + demand c ops + 131071 < c.SZ →
      ∃ s1, run c s ops = some s1 := by
  induction ops with
  | nil => exact fun s _ _ _ _ => ⟨s, rfl⟩
  | cons op rest ih =>
    intro s hops hs h32 hfit
    have hop := hops op (List.mem_cons_self _ _)
    have hrest : ∀ o ∈ rest, o.allocOrRootWrite c = true :=
      fun o ho => hops o (List.mem_cons_of_mem _ ho)
    have hl := hs.mapped.length_ge
    simp only [demand] at h32 hfit
    cases op with
    | New t e =>
      simp only [Op.demand] at h32 hfit
      have hmod : (le32 s.disk.data 8 + rounded c t e) % c.SZ
          = le32 s.disk.data 8 + rounded c t e := Nat.mod_eq_of_lt (by omega)
      obtain ⟨s2, hn, _, _, _, h8, _⟩ := New_mapped c hW s t e hs.mapped
        (Or.inr (by rw [hmod]; omega))
      have hst : step c s (.New t e) = some s2 := by simp only [step, hn]
      have hp2 := persistent_step c hW s s2 _ hop hs hst
      rw [hmod, Nat.mod_eq_of_lt (by omega)] at h8
      obtain ⟨s1, h1⟩ := ih s2 hrest hp2 (by rw [h8]; omega) (by rw [h8]; omega)
      exact ⟨s1, by simp only [run, hst, h1]⟩
    | Reserve cap => simp [Op.allocOrRootWrite] at hop
    | Put o v =>
      have hop2 := hop
      simp only [Op.allocOrRootWrite, decide_eq_true_eq] at hop2
      simp only [Op.demand] at h32 hfit
      have hc := core_eq c hbase
      have hcl := hs.core_le
      have hlt : o < s.disk.length := by unfold sizeofHeader at hop2; omega
      obtain ⟨p, hp⟩ := hs.mapped.get_some hlt
      have hst : step c s (.Put o v) = some
          { s with disk := { s.disk with
              data := fun i => if i = o then v % 256 else s.disk.data i } } := by
        simp only [step, hp, store8, hs.mapped.get_resolve hp]
      have hp2 := persistent_step c hW s _ _ hop hs hst
      have h8 : le32 (fun i => if i = o then v % 256 else s.disk.data i) 8
          = le32 s.disk.data 8 :=
        le32_congr _ _ _ (fun i _ hi => by
          show (if i = o then v % 256 else s.disk.data i) = s.disk.data i
          rw [if_neg (by unfold sizeofHeader at hop2; omega)])
      obtain ⟨s1, h1⟩ := ih _ hrest hp2 (by rw [h8]; omega) (by rw [h8]; omega)
      exact ⟨s1, by simp only [run, hst, h1]⟩

/-! ## Claim C8: closing and reopening -/

/-- Claim C8, as amended. Persistence round trip. Take `Open` on an empty file
followed by any sequence of `New` calls and byte stores into the root record. The
calls return whenever the sizes asked for keep `size_` below `2 ^ 32` and `size_`
plus 131071 within `size_t` (on 64 bits the second follows from the first); and
whenever the calls return, opening the same file again succeeds and shows the same
`magic_` (`Magic`), `version_` (0) and `size_`, the same file length and bytes, and in
particular the same bytes of the root record at the offsets `sizeof(Header) + j`.
With no call in between this is create-then-reopen. -/
theorem reopen_round_trip (c : Config) (hW : c.W = 4 ∨ c.W = 8)
    (hbase : sizeofHeader + c.base < c.SZ) (disk : Disk) (hd : disk.length = 0)
    (s0 : File) (h0 : Open c disk = .ok s0) (ops : List Op)
    (hops : ∀ op ∈ ops, op.allocOrRootWrite c = true) :
    (core c + demand c ops < 2 ^ 32 → core c + demand c ops + 131071 < c.SZ →
      ∃ s, run c s0 ops = some s) ∧
    ∀ s, run c s0 ops = some s →
      ∃ s2, Open c s.disk = .ok s2 ∧
        magic_ s = some Magic ∧ magic_ s2 = some Magic ∧
        version_ s = some 0 ∧ version_ s2 = some 0 ∧
        Size_ s = some (le32 s.disk.data 8) ∧ Size_ s2 = some (le32 s.disk.data 8) ∧
        s2.disk.length = s.disk.length ∧
        (∀ i, i < s.disk.length → s2.disk.data i = s.disk.data i) ∧
        (∀ j, j < c.base →
          peek s (sizeofHeader + j) = some (s.disk.data (sizeofHeader + j) % 256) ∧
          peek s2 (sizeofHeader + j) = some (s.disk.data (sizeofHeader + j) % 256)) := by
  have hp0 := persistent_of_Open c hW disk hd s0 h0
  refine ⟨fun h32 hfit => ?_, fun s hrun => ?_⟩
  · obtain ⟨_, _, h8, _⟩ := Open_empty_header c hW disk hd s0 h0
    rw [Nat.mod_eq_of_lt (by omega)] at h8
    exact persistent_returns c hW hbase ops s0 hops hp0 (by rw [h8]; exact h32)
      (by rw [h8]; exact hfit)
  · have hp := persistent_run c hW ops s0 s hops hp0 hrun
    obtain ⟨s2, ho, hm2, hlen, hdata⟩ := persistent_reopen c hW s hp
    have hl := hp.mapped.length_ge
    have hc := core_eq c hbase
    have hcl := hp.core_le
    have e0 : le32 s2.disk.data 0 = le32 s.disk.data 0 :=
      le32_congr _ _ _ (fun i _ _ => hdata i (by omega))
    have e4 : le32 s2.disk.data 4 = le32 s.disk.data 4 :=
      le32_congr _ _ _ (fun i _ _ => hdata i (by omega))
    have e8 : le32 s2.disk.data 8 = le32 s.disk.data 8 :=
      le32_congr _ _ _ (fun i _ _ => hdata i (by omega))
    refine ⟨s2, ho, ?_, ?_, ?_, ?_, hp.mapped.size, ?_, hlen, hdata, fun j hj => ?_⟩
    · rw [hp.mapped.magic, hp.magic]
    · rw [hm2.magic, e0, hp.magic]
    · rw [hp.mapped.version, hp.version]
    · rw [hm2.version, e4, hp.version]
    · rw [hm2.size, e8]
    · have hlt : sizeofHeader + j < s.disk.length := by
        unfold sizeofHeader at hc ⊢
        omega
      refine ⟨hp.mapped.peek hlt, ?_⟩
      rw [hm2.peek (by rw [hlen]; exact hlt), hdata _ hlt]

/-- Witness of `reopen_round_trip`: three allocations and a store into the root
record of a heap created on a 64-bit platform, then a reopen. -/
theorem reopen_round_trip_witness :
    ∃ s s2, run cfg64 heap64 [.New 12 0, .Put 16 7, .New 12 0, .New 12 0] = some s ∧
      Open cfg64 s.disk = .ok s2 ∧
      magic_ s = some Magic ∧ magic_ s2 = some Magic ∧
      version_ s = some 0 ∧ version_ s2 = some 0 ∧
      Size_ s = some 68 ∧ Size_ s2 = some 68 ∧
      peek s 16 = some 7 ∧ peek s2 16 = some 7 := by
  obtain ⟨s, hs⟩ :=
    (reopen_round_trip cfg64 (Or.inr rfl) (by decide) emptyDisk rfl heap64 rfl
      [.New 12 0, .Put 16 7, .New 12 0, .New 12 0] (by decide)).1 (by decide) (by decide)
  obtain ⟨s2, h1, h2, h3, h4, h5, h6, h7, _, _, h10⟩ :=
    (reopen_round_trip cfg64 (Or.inr rfl) (by decide) emptyDisk rfl heap64 rfl
      [.New 12 0, .Put 16 7, .New 12 0, .New 12 0] (by decide)).2 _ rfl
  exact ⟨_, s2, rfl, h1, h2, h3, h4, h5, h6, h7, (h10 0 (by decide)).1, (h10 0 (by decide)).2⟩

/-- Counterexample to claim C8 as stated. On a 32-bit platform: `Open` on an empty
file, a store of 7 into the first byte of the root record, then `New` of
`2 ^ 32 - 24` bytes, which would bring `size_` from 20 to `2 ^ 32 - 4`, below
`2 ^ 32`.  The `Reserve(2 ^ 32 - 4)` inside `New` pops the only granule, rounds the
capacity to 0 and truncates the file to nothing, and `New` then reads `size_`
through an empty granule list, so the calls do not return.  Opening the file that
is left creates a new heap, whose root record reads 0, not 7. -/
theorem reopen_after_wrap_loses_root :
    ∃ s0 s1 s2 s3, Open cfg32 emptyDisk = .ok s0 ∧
      (∀ op ∈ [Op.Put 16 7, Op.New 4294967272 0], op.allocOrRootWrite cfg32 = true) ∧
      step cfg32 s0 (.Put 16 7) = some s1 ∧ peek s1 16 = some 7 ∧ Size_ s1 = some 20 ∧
      20 + rounded cfg32 4294967272 0 = 4294967292 ∧ 4294967292 < 2 ^ 32 ∧
      Reserve cfg32 s1 4294967292 = some s2 ∧ s2.blocks_ = [] ∧ s2.disk.length = 0 ∧
      Size_ s2 = none ∧
      New cfg32 s1 4294967272 0 = none ∧
      run cfg32 s0 [.Put 16 7, .New 4294967272 0] = none ∧
      Open cfg32 s2.disk = .ok s3 ∧ peek s3 16 = some 0 :=
  ⟨_, _, _, _, rfl, by decide, rfl, rfl, rfl, by decide, by decide, rfl, rfl, rfl, rfl, rfl,
    rfl, rfl, rfl⟩

/-! ## Successive `New` calls -/

theorem total_cons (c : Config) (t e : Nat) (rest : List (Nat × Nat)) :
    total c ((t, e) :: rest) = rounded c t e + total c rest := by
  simp [total, sizes]

/-- While `size_` stays below `2 ^ 32`, successive `New` calls on a mapped heap
return the starts of regions laid end to end from the old `size_`. -/
theorem allocate_starts (c : Config) (hW : c.W = 4 ∨ c.W = 8) (reqs : List (Nat × Nat)) :
    ∀ (s : File) (os : List Nat) (s2 : File), Mapped c s →
      le32 s.disk.data 8 + total c reqs < 2 ^ 32 →
      allocate c s reqs = some (os, s2) →
      os = starts (le32 s.disk.data 8) (sizes c reqs) ∧ Mapped c s2 ∧
        le32 s2.disk.data 8 = le32 s.disk.data 8 + total c reqs := by
  induction reqs with
  | nil =>
    intro s os s2 hs _ h
    simp only [allocate, Option.some.injEq, Prod.mk.injEq] at h
    obtain ⟨h1, h2⟩ := h
    subst h1 h2
    exact ⟨rfl, hs, by simp [total, sizes]⟩
  | cons q rest ih =>
    intro s os s2 hs h32 h
    obtain ⟨t, e⟩ := q
    rw [total_cons] at h32
    simp only [allocate] at h
    have hSZ := SZ_ge c hW
    cases hn : New c s t e with
    | none => simp [hn] at h
    | some r =>
      obtain ⟨o1, s1⟩ := r
      simp only [hn] at h
      cases ha : allocate c s1 rest with
      | none => simp [ha] at h
      | some r2 =>
        obtain ⟨os1, s3⟩ := r2
        simp only [ha, Option.some.injEq, Prod.mk.injEq] at h
        obtain ⟨hos, hs3⟩ := h
        subst hos hs3
        obtain ⟨ho1, hm1, _, _, h8, _⟩ := New_some_mapped c hW s t e hs o1 s1 hn
        subst ho1
        norm_num at h32
        have hmod : (le32 s.disk.data 8 + rounded c t e) % c.SZ
            = le32 s.disk.data 8 + rounded c t e := Nat.mod_eq_of_lt (by omega)
        rw [hmod, Nat.mod_eq_of_lt (by norm_num; omega)] at h8
        obtain ⟨e1, e2, e3⟩ := ih s1 os1 s3 hm1 (by rw [h8]; norm_num; omega) ha
        refine ⟨?_, e2, ?_⟩
        · rw [e1, h8]
          rfl
        · rw [e3, h8, total_cons]
          omega

/-- Successive `New` calls on a mapped heap return when the sizes asked for keep
`size_` below `2 ^ 32` and the capacity roundable in `size_t`. -/
theorem allocate_returns (c : Config) (hW : c.W = 4 ∨ c.W = 8) (reqs : List (Nat × Nat)) :
    ∀ (s : File), Mapped c s →
      le32 s.disk.data 8 + total c reqs < 2 ^ 32 →
      le32 s.disk.data 8 + total c reqs + 131071 < c.SZ →
      ∃ os s2, allocate c s reqs = some (os, s2) := by
  induction reqs with
  | nil => exact fun s _ _ _ => ⟨[], s, rfl⟩
  | cons q rest ih =>
    intro s hs h32 hfit
    obtain ⟨t, e⟩ := q
    rw [total_cons] at h32 hfit
    norm_num at h32
    have hmod : (le32 s.disk.data 8 + rounded c t e) % c.SZ
        = le32 s.disk.data 8 + rounded c t e := Nat.mod_eq_of_lt (by omega)
    obtain ⟨s1, hn, hm1, _, _, h8, _⟩ := New_mapped c hW s t e hs
      (Or.inr (by rw [hmod]; omega))
    rw [hmod, Nat.mod_eq_of_lt (by norm_num; omega)] at h8
    obtain ⟨os, s2, ha⟩ := ih s1 hm1 (by rw [h8]; norm_num; omega) (by rw [h8]; omega)
    exact ⟨le32 s.disk.data 8 :: os, s2, by simp only [allocate, hn, ha]⟩

/-! ## Regions laid end to end -/

theorem starts_ge (rs : List Nat) : ∀ (a o : Nat), o ∈ starts a rs → a ≤ o := by
  induction rs with
  | nil => intro a o h; cases h
  | cons r rs ih =>
    intro a o h
    simp only [starts, List.mem_cons] at h
    rcases h with h | h
    · omega
    · have := ih (a + r) o h
      omega

theorem starts_le (rs : List Nat) : ∀ (a o : Nat), o ∈ starts a rs → o ≤ a + rs.sum := by
  induction rs with
  | nil => intro a o h; cases h
  | cons r rs ih =>
    intro a o h
    simp only [starts, List.mem_cons] at h
    simp only [List.sum_cons]
    rcases h with h | h
    · omega
    · have := ih (a + r) o h
      omega

theorem starts_nondecreasing (rs : List Nat) :
    ∀ a, List.Pairwise (· ≤ ·) (starts a rs ++ [a + rs.sum]) := by
  induction rs with
  | nil => intro a; simp [starts]
  | cons r rs ih =>
    intro a
    simp only [starts, List.cons_append, List.pairwise_cons, List.sum_cons]
    refine ⟨fun x hx => ?_, by rw [← Nat.add_assoc]; exact ih (a + r)⟩
    rcases List.mem_append.mp hx with h | h
    · have := starts_ge rs _ _ h
      omega
    · simp only [List.mem_singleton] at h
      omega

theorem starts_increasing (rs : List Nat) (hpos : ∀ r ∈ rs, 0 < r) :
    ∀ a, List.Pairwise (· < ·) (starts a rs ++ [a + rs.sum]) := by
  induction rs with
  | nil => intro a; simp [starts]
  | cons r rs ih =>
    intro a
    have hr := hpos r (List.mem_cons_self _ _)
    simp only [starts, List.cons_append, List.pairwise_cons, List.sum_cons]
    refine ⟨fun x hx => ?_, by
      rw [← Nat.add_assoc]
      exact ih (fun x hx => hpos x (List.mem_cons_of_mem _ hx)) (a + r)⟩
    rcases List.mem_append.mp hx with h | h
    · have := starts_ge rs _ _ h
      omega
    · simp only [List.mem_singleton] at h
      omega

theorem starts_tiles (rs : List Nat) :
    ∀ a, Tiles a ((starts a rs).zip rs) (a + rs.sum) := by
  induction rs with
  | nil => intro a; simp [starts, Tiles]
  | cons r rs ih =>
    intro a
    simp only [starts, List.zip_cons_cons, Tiles, List.sum_cons, true_and]
    rw [← Nat.add_assoc]
    exact ih (a + r)

theorem starts_within (rs : List Nat) :
    ∀ (a : Nat) (p : Nat × Nat), p ∈ (starts a rs).zip rs →
      a ≤ p.1 ∧ p.1 + p.2 ≤ a + rs.sum := by
  induction rs with
  | nil => intro a p h; simp [starts] at h
  | cons r rs ih =>
    intro a p h
    simp only [starts, List.zip_cons_cons, List.mem_cons] at h
    simp only [List.sum_cons]
    rcases h with h | h
    · subst h
      simp only
      omega
    · have := ih (a + r) p h
      omega

theorem starts_disjoint (rs : List Nat) :
    ∀ a, List.Pairwise (fun p q : Nat × Nat => p.1 + p.2 ≤ q.1) ((starts a rs).zip rs) := by
  induction rs with
  | nil => intro a; simp [starts]
  | cons r rs ih =>
    intro a
    simp only [starts, List.zip_cons_cons, List.pairwise_cons]
    exact ⟨fun q hq => (starts_within rs (a + r) q hq).1, ih (a + r)⟩

theorem starts_length (rs : List Nat) : ∀ a, (starts a rs).length = rs.length := by
  induction rs with
  | nil => intro a; rfl
  | cons r rs ih => intro a; simp [starts, ih]

theorem mod_SZ_mod (c : Config) (hW : c.W = 4 ∨ c.W = 8) (x : Nat) :
    x % c.SZ % 2 ^ 32 = x % 2 ^ 32 := by
  rcases c.SZ_cases hW with h | h <;> rw [h] <;> norm_num

/-! ## Claim C11: the offsets of successive `New` calls -/

/-- Claim C11, as amended. On every open (mapped) heap each returning `New` returns
the old `size_` and stores `(size_ + rounded) mod 2 ^ 32`.  For every sequence of
`New` calls whose rounded sizes keep `size_` below `2 ^ 32`: the calls return (when
the capacity stays roundable in `size_t`); the offsets returned are the running
sums from the old `size_`; offsets and `size_` never decrease; and they increase
strictly when every rounded size is positive. -/
theorem New_offsets_increase (c : Config) (hW : c.W = 4 ∨ c.W = 8) (s : File)
    (hs : Mapped c s) (cur : Nat) (hcur : Size_ s = some cur) :
    (∀ t e o s2, New c s t e = some (o, s2) →
      o = cur ∧ Size_ s2 = some ((cur + rounded c t e) % 2 ^ 32)) ∧
    ∀ reqs, cur + total c reqs < 2 ^ 32 →
      (cur + total c reqs + 131071 < c.SZ → ∃ os s2, allocate c s reqs = some (os, s2)) ∧
      ∀ os s2, allocate c s reqs = some (os, s2) →
        Size_ s2 = some (cur + total c reqs) ∧
        os = starts cur (sizes c reqs) ∧
        List.Pairwise (· ≤ ·) (os ++ [cur + total c reqs]) ∧
        ((∀ q ∈ reqs, 0 < rounded c q.1 q.2) →
          List.Pairwise (· < ·) (os ++ [cur + total c reqs])) := by
  rw [hs.size] at hcur
  simp only [Option.some.injEq] at hcur
  subst hcur
  refine ⟨fun t e o s2 h => ?_, fun reqs h32 => ⟨fun hfit => ?_, fun os s2 h => ?_⟩⟩
  · obtain ⟨ho, hm, _, _, h8, _⟩ := New_some_mapped c hW s t e hs o s2 h
    subst ho
    exact ⟨rfl, by rw [hm.size, h8, mod_SZ_mod c hW]⟩
  · exact allocate_returns c hW reqs s hs h32 hfit
  · obtain ⟨e1, hm, e3⟩ := allocate_starts c hW reqs s os s2 hs h32 h
    refine ⟨by rw [hm.size, e3], e1, ?_, fun hpos => ?_⟩
    · rw [e1]
      exact starts_nondecreasing _ _
    · rw [e1]
      refine starts_increasing _ (fun r hr => ?_) _
      simp only [sizes, List.mem_map] at hr
      obtain ⟨q, hq, rfl⟩ := hr
      exact hpos q hq

/-- Witness of `New_offsets_increase`: three `New` calls of 12 bytes on a heap just
created on a 64-bit platform return 20, 36 and 52 and leave `size_ = 68`. -/
theorem New_offsets_increase_witness :
    ∃ s2, allocate cfg64 heap64 [(12, 0), (12, 0), (12, 0)] = some ([20, 36, 52], s2) ∧
      Size_ s2 = some 68 ∧ List.Pairwise (· < ·) ([20, 36, 52] ++ [68]) := by
  have T := (New_offsets_increase cfg64 (Or.inr rfl) heap64 heap64_mapped 20 rfl).2
    [(12, 0), (12, 0), (12, 0)] (by decide)
  obtain ⟨os, s2, h⟩ := T.1 (by decide)
  obtain ⟨h1, h2, _, h4⟩ := T.2 os s2 h
  have e : os = [20, 36, 52] := by rw [h2]; decide
  subst e
  exact ⟨s2, h, h1, h4 (by decide)⟩

/-- Counterexample to claim C11 as stated. On a 64-bit platform a one-granule file
with a valid header whose `size_` is `2 ^ 32 - 16` opens; `New` of 32 bytes returns
`2 ^ 32 - 16` and leaves `size_ = 16`, so `size_` has decreased, and the next `New`
returns 16, below the offset returned before. -/
theorem New_size_wraps :
    ∃ s s1 s2, Open cfg64 diskHighWater = .ok s ∧ Size_ s = some 4294967280 ∧
      New cfg64 s 32 0 = some (4294967280, s1) ∧ Size_ s1 = some 16 ∧
      New cfg64 s1 8 0 = some (16, s2) := by
  have hW : cfg64.W = 4 ∨ cfg64.W = 8 := Or.inr rfl
  have hopen : Open cfg64 diskHighWater
      = .ok (Truncate_ cfg64 ⟨diskHighWater, [], []⟩ 131072) := rfl
  have hs := Open_ok_mapped cfg64 hW _ _ hopen
  have hsz : le32 (Truncate_ cfg64 ⟨diskHighWater, [], []⟩ 131072).disk.data 8
      = 4294967280 := by decide
  obtain ⟨s1, h1, hm1, _, hcap1, h8, _⟩ := New_mapped cfg64 hW _ 32 0 hs
    (Or.inr (by rw [hsz]; decide))
  rw [hsz] at h1 h8 hcap1
  have h16 : le32 s1.disk.data 8 = 16 := by rw [h8]; decide
  have hreq : (4294967280 + rounded cfg64 32 0) % cfg64.SZ = 4294967312 := by decide
  rw [hreq] at hcap1
  obtain ⟨s2, h2, _⟩ := New_mapped cfg64 hW s1 8 0 hm1
    (Or.inl (by
      rw [hm1.capacity, h16]
      have : (16 + rounded cfg64 8 0) % cfg64.SZ = 24 := by decide
      rw [this]
      omega))
  rw [h16] at h2
  exact ⟨_, s1, s2, hopen, by rw [hs.size, hsz], h1, by rw [hm1.size, h16], h2⟩

/-! ## Claims C14 and C17: where the allocations lie -/

/-- Claim C14, as amended. A default-constructed `Offset` is null, and `IsNull()`
holds exactly when `GetOffset() == 0`.  On a heap created by `Open` on an empty
file, for every sequence of returning `New` calls whose rounded sizes keep `size_`
below `2 ^ 32` (`core` included), every offset returned is at least
`core >= sizeof(Header) = 16`, hence not null. -/
theorem New_offsets_not_null (c : Config) (hW : c.W = 4 ∨ c.W = 8)
    (hbase : sizeofHeader + c.base < c.SZ) :
    Offset.init.IsNull = true ∧
    (∀ ref : Offset, ref.IsNull = true ↔ ref.GetOffset = 0) ∧
    ∀ disk s0, disk.length = 0 → Open c disk = .ok s0 →
      ∀ reqs, core c + total c reqs < 2 ^ 32 →
        ∀ os s, allocate c s0 reqs = some (os, s) →
          ∀ o ∈ os, sizeofHeader ≤ o ∧ core c ≤ o ∧ (Offset.mk o).IsNull = false := by
  refine ⟨rfl, fun ref => by simp [Offset.IsNull, Offset.GetOffset], ?_⟩
  intro disk s0 hd h0 reqs h32 os s h o ho
  obtain ⟨hm0, _⟩ := Open_empty c hW disk hd s0 h0
  obtain ⟨_, _, h8, _⟩ := Open_empty_header c hW disk hd s0 h0
  have hc := core_eq c hbase
  rw [Nat.mod_eq_of_lt (by omega)] at h8
  obtain ⟨e1, _, _⟩ := allocate_starts c hW reqs s0 os s hm0 (by rw [h8]; exact h32) h
  rw [e1, h8] at ho
  have hge := starts_ge _ _ _ ho
  have h16 : sizeofHeader ≤ o := by unfold sizeofHeader; omega
  refine ⟨h16, hge, ?_⟩
  simp only [Offset.IsNull, beq_eq_false_iff_ne, ne_eq]
  unfold sizeofHeader at h16
  omega

/-- Witness of `New_offsets_not_null`: the offsets 20, 36 and 52 of three `New`
calls on a heap just created on a 64-bit platform. -/
theorem New_offsets_not_null_witness :
    (∃ s, allocate cfg64 heap64 [(12, 0), (12, 0), (12, 0)] = some ([20, 36, 52], s)) ∧
      (sizeofHeader ≤ 20 ∧ core cfg64 ≤ 20 ∧ (Offset.mk 20).IsNull = false) ∧
      (sizeofHeader ≤ 52 ∧ core cfg64 ≤ 52 ∧ (Offset.mk 52).IsNull = false) := by
  obtain ⟨s, hs⟩ : ∃ s, allocate cfg64 heap64 [(12, 0), (12, 0), (12, 0)]
      = some ([20, 36, 52], s) := ⟨_, rfl⟩
  have T := (New_offsets_not_null cfg64 (Or.inr rfl) (by decide)).2.2 emptyDisk heap64 rfl rfl
    [(12, 0), (12, 0), (12, 0)] (by decide) [20, 36, 52] s hs
  exact ⟨⟨s, hs⟩, T 20 (by decide), T 52 (by decide)⟩

/-- Counterexample to claim C14 as stated. On a 64-bit platform with an 8-byte root
record, `New` of `2 ^ 32 - 24` bytes on a fresh heap returns 24 and brings `size_`
to `2 ^ 32`, stored as 0; the next `New` returns offset 0, which is null and lies
on the header. -/
theorem New_returns_null :
    ∃ s1 s2, Open cfg64r8 emptyDisk = .ok heap64r8 ∧
      New cfg64r8 heap64r8 4294967272 0 = some (24, s1) ∧ Size_ s1 = some 0 ∧
      New cfg64r8 s1 8 0 = some (0, s2) ∧ (Offset.mk 0).IsNull = true := by
  have hW : cfg64r8.W = 4 ∨ cfg64r8.W = 8 := Or.inr rfl
  have hopen : Open cfg64r8 emptyDisk = .ok heap64r8 := rfl
  have hs := Open_ok_mapped cfg64r8 hW _ _ hopen
  have hsz : le32 heap64r8.disk.data 8 = 24 := by decide
  obtain ⟨s1, h1, hm1, _, _, h8, _⟩ := New_mapped cfg64r8 hW heap64r8 4294967272 0 hs
    (Or.inr (by rw [hsz]; decide))
  rw [hsz] at h1 h8
  have h0 : le32 s1.disk.data 8 = 0 := by rw [h8]; decide
  obtain ⟨s2, h2, _⟩ := New_mapped cfg64r8 hW s1 8 0 hm1
    (Or.inl (by
      rw [hm1.capacity, h0]
      have e : (0 + rounded cfg64r8 8 0) % cfg64r8.SZ = 8 := by decide
      have := hm1.length_ge
      rw [e]
      omega))
  rw [h0] at h2
  exact ⟨s1, s2, hopen, h1, by rw [hm1.size, h0], h2, rfl⟩

/-- Claim C17. On a heap created by `Open` on an empty file, for every sequence of
`New` calls whose rounded sizes keep `size_` below `2 ^ 32`: the calls return (when
the capacity stays roundable in `size_t`), and the regions `[o_i, o_i + r_i)` they
return tile `[core, size_)` in order with no gap and no reuse, are pairwise
disjoint, and each lies at or after `core = sizeof(Header) + sizeof(RootRecord)`,
past the header and the root record. -/
theorem New_regions_tile (c : Config) (hW : c.W = 4 ∨ c.W = 8)
    (hbase : sizeofHeader + c.base < c.SZ) (disk : Disk) (hd : disk.length = 0)
    (s0 : File) (h0 : Open c disk = .ok s0) (reqs : List (Nat × Nat))
    (h32 : core c + total c reqs < 2 ^ 32) :
    (core c + total c reqs + 131071 < c.SZ → ∃ os s, allocate c s0 reqs = some (os, s)) ∧
    ∀ os s, allocate c s0 reqs = some (os, s) →
      Size_ s = some (core c + total c reqs) ∧ os.length = reqs.length ∧
      Tiles (core c) (os.zip (sizes c reqs)) (core c + total c reqs) ∧
      List.Pairwise (fun p q : Nat × Nat => p.1 + p.2 ≤ q.1) (os.zip (sizes c reqs)) ∧
      ∀ p ∈ os.zip (sizes c reqs),
        sizeofHeader + c.base ≤ p.1 ∧ p.1 + p.2 ≤ core c + total c reqs := by
  obtain ⟨hm0, _⟩ := Open_empty c hW disk hd s0 h0
  obtain ⟨_, _, h8, _⟩ := Open_empty_header c hW disk hd s0 h0
  have hc := core_eq c hbase
  rw [Nat.mod_eq_of_lt (by omega)] at h8
  refine ⟨fun hfit => allocate_returns c hW reqs s0 hm0 (by rw [h8]; exact h32)
    (by rw [h8]; exact hfit), fun os s h => ?_⟩
  obtain ⟨e1, hm, e3⟩ := allocate_starts c hW reqs s0 os s hm0 (by rw [h8]; exact h32) h
  rw [h8] at e1 e3
  subst e1
  refine ⟨by rw [hm.size, e3], by simp [starts_length, sizes], starts_tiles _ _,
    starts_disjoint _ _, fun p hp => ?_⟩
  have := starts_within _ _ p hp
  unfold sizeofHeader
  unfold total
  omega

/-- Witness of `New_regions_tile`: three `New` calls of 12 bytes on a heap just
created on a 64-bit platform return the regions `[20, 36)`, `[36, 52)`, `[52, 68)`. -/
theorem New_regions_tile_witness :
    ∃ s, allocate cfg64 heap64 [(12, 0), (12, 0), (12, 0)] = some ([20, 36, 52], s) ∧
      Size_ s = some 68 ∧
      Tiles 20 [(20, 16), (36, 16), (52, 16)] 68 ∧
      List.Pairwise (fun p q : Nat × Nat => p.1 + p.2 ≤ q.1) [(20, 16), (36, 16), (52, 16)] := by
  obtain ⟨s, hs⟩ : ∃ s, allocate cfg64 heap64 [(12, 0), (12, 0), (12, 0)]
      = some ([20, 36, 52], s) := ⟨_, rfl⟩
  obtain ⟨h1, _, h3, h4, _⟩ :=
    (New_regions_tile cfg64 (Or.inr rfl) (by decide) emptyDisk rfl heap64 rfl
      [(12, 0), (12, 0), (12, 0)] (by decide)).2 _ s hs
  exact ⟨s, hs, h1, h3, h4⟩

/-! ## Claim C12: offset-to-address translation -/

/-- Claim C12. On every open (mapped) heap and for every offset: the shift/mask
form of `Get` is the div/mod form, `blocks_[offset / 131072] + offset % 131072`;
the granule index lies inside the granule list exactly when `offset < Capacity()`;
for such an offset `Get` yields a pointer, which denotes file byte `offset`; `Get`
on an `Offset` handle is `Get` on its raw `GetOffset()` value; and the root
accessor is `Get(sizeof(Header)) = Get(16)`. -/
theorem Get_translates (c : Config) (s : File)
    (hs : Mapped c s) (offset : Nat) :
    (offset >>> Shift_ = offset / 131072 ∧ offset &&& Mask_ = offset % 131072) ∧
    Get s offset =
      (s.blocks_[offset / 131072]?).map
        (fun b => (⟨b.region, b.delta + offset % 131072⟩ : Ptr)) ∧
    (offset / 131072 < s.blocks_.length ↔ offset < Capacity c s) ∧
    (offset < Capacity c s →
      ∃ b, s.blocks_[offset / 131072]? = some b ∧
        Get s offset = some ⟨b.region, b.delta + offset % 131072⟩ ∧
        s.resolve ⟨b.region, b.delta + offset % 131072⟩ = some offset) ∧
    Get_ref s ⟨offset⟩ = Get s offset ∧
    (∀ ref : Offset, Get_ref s ref = Get s ref.GetOffset) ∧
    root s = Get s 16 := by
  obtain ⟨e1, e2⟩ := shift_mask offset
  have hcap := hs.capacity
  have hlen := hs.length_eq
  rw [Block_val] at hlen
  have hget : Get s offset =
      (s.blocks_[offset / 131072]?).map
        (fun b => (⟨b.region, b.delta + offset % 131072⟩ : Ptr)) := by
    unfold Get
    rw [e1, e2]
    cases s.blocks_[offset / 131072]? <;> rfl
  have hiff : offset / 131072 < s.blocks_.length ↔ offset < Capacity c s := by
    rw [hcap]
    omega
  refine ⟨⟨e1, e2⟩, hget, hiff, fun hlt => ?_, rfl, fun _ => rfl, rfl⟩
  have hi := hiff.mpr hlt
  have hb : s.blocks_[offset / 131072]? = some (s.blocks_[offset / 131072]) :=
    List.getElem?_eq_getElem hi
  have hg : Get s offset
      = some ⟨(s.blocks_[offset / 131072]).region,
          (s.blocks_[offset / 131072]).delta + offset % 131072⟩ := by
    rw [hget, hb]
    rfl
  exact ⟨_, hb, hg, hs.get_resolve hg⟩

/-- Witness of `Get_translates`: offset 131123 on a two-granule heap. -/
theorem Get_translates_witness :
    ∃ s, Reserve cfg64 heap64 131073 = some s ∧
      Get s 131123 = some ⟨1, 131072 + 51⟩ ∧ s.resolve ⟨1, 131072 + 51⟩ = some 131123 ∧
      Get_ref s ⟨131123⟩ = Get s 131123 ∧ root s = Get s 16 := by
  obtain ⟨s, hr, hm, _⟩ := (Reserve_mapped cfg64 (Or.inr rfl) heap64 131073 heap64_mapped
    (Or.inr (by decide)))
  have hr2 : Reserve cfg64 heap64 131073 = some
      (Truncate_ cfg64 { heap64 with blocks_ := heap64.blocks_.dropLast } 131073) := rfl
  rw [hr2] at hr
  simp only [Option.some.injEq] at hr
  subst hr
  obtain ⟨_, _, _, h4, h5, _, h7⟩ :=
    Get_translates cfg64 _ hm 131123
  obtain ⟨b, hb, hg, hres⟩ := h4 (by decide)
  have eb : b = ⟨1, 131072⟩ := by
    have : (Truncate_ cfg64 { heap64 with blocks_ := heap64.blocks_.dropLast }
      131073).blocks_[131123 / 131072]? = some ⟨1, 131072⟩ := rfl
    rw [this] at hb
    simp only [Option.some.injEq] at hb
    exact hb.symm
  subst eb
  exact ⟨_, rfl, hg, hres, h5, rfl⟩

/-! ## Claim C13: the region `New` returns is mapped -/

/-- Claim C13. On every open (mapped) heap, whatever its `size_` (also beyond the
file length): `New` returns when the request fits the capacity or can be rounded
in `size_t`; and when `New` returns the offset `o` for a region of
`r = Round(sizeof(T) + extra, W)` bytes with `o + r` a `size_t`, then
`o + r <= Capacity()`, so every byte offset of `[o, o + r)` has its granule index
inside the granule list and `Get` of it denotes that byte of the file. -/
theorem New_region_is_mapped (c : Config) (hW : c.W = 4 ∨ c.W = 8) (s : File)
    (hs : Mapped c s) (t e cur : Nat) (hcur : Size_ s = some cur)
    (hov : cur + rounded c t e < c.SZ) :
    ((cur + rounded c t e ≤ Capacity c s ∨ cur + rounded c t e + 131071 < c.SZ) →
      ∃ s2, New c s t e = some (cur, s2)) ∧
    ∀ o s2, New c s t e = some (o, s2) →
      o = cur ∧ o + rounded c t e ≤ Capacity c s2 ∧
      ∀ x, o ≤ x → x < o + rounded c t e →
        x >>> Shift_ < s2.blocks_.length ∧
        ∃ p, Get s2 x = some p ∧ s2.resolve p = some x := by
  rw [hs.size] at hcur
  simp only [Option.some.injEq] at hcur
  subst hcur
  have hmod : (le32 s.disk.data 8 + rounded c t e) % c.SZ
      = le32 s.disk.data 8 + rounded c t e := Nat.mod_eq_of_lt hov
  refine ⟨fun hfit => ?_, fun o s2 h => ?_⟩
  · obtain ⟨s2, h, _⟩ := New_mapped c hW s t e hs (by rw [hmod]; exact hfit)
    exact ⟨s2, h⟩
  · obtain ⟨ho, hm, _, hcap, _, _⟩ := New_some_mapped c hW s t e hs o s2 h
    subst ho
    rw [hmod] at hcap
    refine ⟨rfl, by rw [hm.capacity]; exact hcap, fun x _ hx => ?_⟩
    have hlt : x < s2.disk.length := by omega
    have hlen := hm.length_eq
    rw [Block_val] at hlen
    obtain ⟨p, hp⟩ := hm.get_some hlt
    refine ⟨?_, p, hp, hm.get_resolve hp⟩
    rw [(shift_mask x).1]
    omega

/-- Witness of `New_region_is_mapped`: a heap opened from a one-granule file whose
`size_` is 1000000; `New` of 8 bytes returns 1000000 and the capacity becomes
1048576. -/
theorem New_region_is_mapped_witness :
    ∃ s s2, Open cfg64 diskAhead = .ok s ∧ Capacity cfg64 s = 131072 ∧
      New cfg64 s 8 0 = some (1000000, s2) ∧
      1000000 + rounded cfg64 8 0 ≤ Capacity cfg64 s2 ∧ Capacity cfg64 s2 = 1048576 :=
  ⟨_, _, rfl, rfl, rfl,
    ((New_region_is_mapped cfg64 (Or.inr rfl) _
      (Open_ok_mapped cfg64 (Or.inr rfl) diskAhead _ rfl) 8 0 1000000 rfl (by decide)).2
      _ _ rfl).2.1, rfl⟩

/-! ## Claim C15: `Round` at a power of two -/

theorem round_div_facts (s x : Nat) (hs : 0 < s) :
    x / s * s ≤ x ∧ x < x / s * s + s := by
  have h1 := Nat.div_add_mod x s
  have h2 := Nat.mod_lt x hs
  rw [Nat.mul_comm] at h1
  constructor <;> omega

/-- Claim C15. For every width `w`, every power of two `s = 2 ^ k` and every value
`v` with `v + s - 1` below `2 ^ w`: `Round(v, s)` is `(v + (s - 1)) & ~(s - 1)`, it
is a multiple of `s`, `v <= Round(v, s) < v + s`, it is the least multiple of `s`
that is `>= v`, and rounding it again does not change it.  In particular
`Reserve` rounds to a multiple of the granule size and `New` to a multiple of the
word size. -/
theorem Round_least_multiple (w k v : Nat) (hov : v + 2 ^ k - 1 < 2 ^ w) :
    Round w v (2 ^ k) = (v + (2 ^ k - 1)) &&& (2 ^ w - 1 - (2 ^ k - 1)) ∧
    2 ^ k ∣ Round w v (2 ^ k) ∧
    v ≤ Round w v (2 ^ k) ∧ Round w v (2 ^ k) < v + 2 ^ k ∧
    (∀ m, 2 ^ k ∣ m → v ≤ m → Round w v (2 ^ k) ≤ m) ∧
    Round w (Round w v (2 ^ k)) (2 ^ k) = Round w v (2 ^ k) ∧
    (∀ c : Config, c.W = 4 ∨ c.W = 8 →
      ∀ x, Block_ ∣ Round c.bits x Block_ ∧ c.W ∣ Round c.bits x c.W) := by
  have hpos : 0 < 2 ^ k := Nat.two_pow_pos k
  have hle : 2 ^ k ≤ 2 ^ w := by omega
  have hk : k ≤ w := (Nat.pow_le_pow_iff_right (by decide)).mp hle
  have hdvd : 2 ^ k ∣ 2 ^ w := Nat.pow_dvd_pow 2 hk
  have hR := Round_pow w k v hk
  rw [Nat.mod_eq_of_lt (by omega)] at hR
  obtain ⟨f1, f2⟩ := round_div_facts (2 ^ k) (v + (2 ^ k - 1)) hpos
  generalize hq : (v + (2 ^ k - 1)) / 2 ^ k = q at hR f1 f2
  -- the rounded value leaves room for `s - 1` more below `2 ^ w`
  have hroom : q * 2 ^ k + 2 ^ k ≤ 2 ^ w := by
    obtain ⟨j, hj⟩ := hdvd
    have hlt : q * 2 ^ k < 2 ^ k * j := by omega
    have hqj : q < j := by
      rcases Nat.lt_or_ge q j with h | h
      · exact h
      · have := Nat.mul_le_mul_left (2 ^ k) h
        rw [Nat.mul_comm (2 ^ k) q] at this
        omega
    have := Nat.mul_le_mul_left (2 ^ k) (Nat.succ_le_of_lt hqj)
    rw [Nat.mul_succ, Nat.mul_comm (2 ^ k) q] at this
    omega
  refine ⟨?_, ?_, ?_, ?_, ?_, ?_, ?_⟩
  · have hm : (2 ^ k + 2 ^ w - 1) % 2 ^ w = 2 ^ k - 1 := by
      have : 2 ^ k + 2 ^ w - 1 = (2 ^ k - 1) + 2 ^ w := by omega
      rw [this, Nat.add_mod_right, Nat.mod_eq_of_lt (by omega)]
    unfold Round
    simp only [hm]
    rw [Nat.mod_eq_of_lt (by omega)]
  · rw [hR]
    exact Dvd.intro_left q rfl
  · rw [hR]; omega
  · rw [hR]; omega
  · intro m hm hvm
    rw [hR]
    obtain ⟨j, rfl⟩ := hm
    rcases Nat.lt_or_ge j q with h | h
    · have := Nat.mul_le_mul_left (2 ^ k) (Nat.succ_le_of_lt h)
      rw [Nat.mul_succ, Nat.mul_comm (2 ^ k) q] at this
      omega
    · have := Nat.mul_le_mul_left (2 ^ k) h
      rw [Nat.mul_comm (2 ^ k) q] at this
      exact this
  · rw [hR, Round_pow w k _ hk, Nat.mod_eq_of_lt (by omega)]
    congr 1
    apply Nat.div_eq_of_lt_le
    · omega
    · rw [Nat.succ_mul]
      omega
  · intro c hW x
    have h1 := (Round_block_dvd c hW x).1
    have h2 := (rounded_lt c hW x 0).2
    simp only [rounded, Nat.add_zero] at h2
    have h3 := Round_word c hW x
    refine ⟨?_, ?_⟩
    · rw [Block_val]
      exact Nat.dvd_of_mod_eq_zero h1
    · rw [h3]
      exact Dvd.intro_left _ rfl

/-- Witness of `Round_least_multiple`: rounding 131073 to the granule size in 64
bits gives 262144. -/
theorem Round_least_multiple_witness :
    Round 64 131073 (2 ^ 17) = 262144 ∧ 2 ^ 17 ∣ Round 64 131073 (2 ^ 17) ∧
      131073 ≤ Round 64 131073 (2 ^ 17) ∧ Round 64 131073 (2 ^ 17) < 131073 + 2 ^ 17 ∧
      Round 64 (Round 64 131073 (2 ^ 17)) (2 ^ 17) = Round 64 131073 (2 ^ 17) := by
  obtain ⟨_, h2, h3, h4, _, h6, _⟩ := Round_least_multiple 64 17 131073 (by decide)
  exact ⟨by decide, h2, h3, h4, h6⟩

/-! ## Claim C16: every granule is a window onto its own range of the file -/

/-- Claim C18. On a 64-bit platform, on a fresh heap with the 4-byte root record,
`New` of 131000 bytes and then `New` of 100 bytes (rounded sizes 131000 and 104,
both below 131072) return 20 and 131020; the second region `[131020, 131124)`
crosses the granule boundary at 131072: its first byte is translated through
`blocks_[0]` and its last byte through `blocks_[1]`, two different granule base
addresses. -/
theorem New_region_crosses_granules :
    ∃ s0 s, Open cfg64 emptyDisk = .ok s0 ∧
      allocate cfg64 s0 [(131000, 0), (100, 0)] = some ([20, 131020], s) ∧
      (∀ q ∈ [(131000, 0), (100, 0)], rounded cfg64 q.1 q.2 < 131072) ∧
      rounded cfg64 100 0 = 104 ∧
      131020 >>> Shift_ ≠ (131020 + 104 - 1) >>> Shift_ ∧
      s.blocks_[131020 >>> Shift_]? = some ⟨1, 0⟩ ∧
      s.blocks_[(131020 + 104 - 1) >>> Shift_]? = some ⟨1, 131072⟩ ∧
      Get s 131020 = some ⟨1, 131020⟩ ∧
      Get s (131020 + 104 - 1) = some ⟨1, 131072 + 51⟩ :=
  ⟨_, _, rfl, rfl, by decide, rfl, by decide, rfl, rfl, rfl, rfl⟩

end Cytore
